import Mathlib

/-!
Verification of the coremltools operator-dispatch registry
(`coremltools/converters/mil/frontend/torch/torch_op_registry.py`) and of the
no-op elimination graph pass
(`coremltools/converters/mil/mil/passes/noop_elimination.py`).

Python strings are modelled as lists of characters, Python dicts as functions
into `Option`, and handler callables as opaque numeric identifiers.
-/

set_option maxHeartbeats 1000000

namespace CoremlSpec

/-! ## Torch op registry: data model -/

/-- A Python string (an operator name) as a list of characters. -/
abbrev Name := List Char

/-- Model of Python `s.startswith("__")`. -/
def startsWithUU : Name → Bool
  | c1 :: c2 :: _ => c1 == '_' && c2 == '_'
  | _ => false

/-- Model of Python `s.endswith("__")`: the reversed list starts with two
underscores. -/
def endsWithUU (s : Name) : Bool := startsWithUU s.reverse

/-- Model of Python `s.endswith("_")`: the reversed list starts with an
underscore. -/
def endsWithU (s : Name) : Bool :=
  match s.reverse with
  | c :: _ => c == '_'
  | [] => false

/-- Model of the Python slice `s[2:-2]`. -/
def stripDunder (s : Name) : Name := ((s.drop 2).dropLast).dropLast

/-- Handlers (translation callables) are opaque identifiers. -/
abbrev Handler := Nat

/-- Model of `TorchOpsRegistry.name_to_func_mapping`, a dict from names to
handlers. -/
abbrev Registry := Name → Option Handler

/-- The freshly initialized registry (`self.name_to_func_mapping = {}`). -/
def emptyRegistry : Registry := fun _ => none

/-- Model of `TorchOpsRegistry.set_func_by_name`: bind `n` to `f`. -/
def set_func_by_name (m : Registry) (f : Handler) (n : Name) : Registry :=
  fun k => if k = n then some f else m k

/-- Model of `TorchOpsRegistry.get_func`: strip a dunder wrapper if present,
else strip one trailing underscore, then look the key up. -/
def get_func (m : Registry) (op_lookup : Name) : Option Handler :=
  if startsWithUU op_lookup && endsWithUU op_lookup then
    m (stripDunder op_lookup)
  else if endsWithU op_lookup then
    m op_lookup.dropLast
  else
    m op_lookup

/-- The two errors `register_func` can raise: the generic `Exception` for an
in-place (trailing-underscore) name, and the `ValueError` for a duplicate. -/
inductive RegError where
  | invalidName
  | duplicate
deriving DecidableEq

/-- The loop body of `TorchOpsRegistry.register_func`: process the target
names in list order; on the first failing name stop and report the error,
keeping all bindings made so far (the Python exception propagates while the
dict keeps earlier mutations). -/
def registerNames (f : Handler) (override : Bool) :
    Registry → List Name → Registry × Option RegError
  | m, [] => (m, none)
  | m, n :: rest =>
    if endsWithU n then (m, some .invalidName)
    else if !override && (m n).isSome then (m, some .duplicate)
    else registerNames f override (set_func_by_name m f n) rest

/-- Model of `TorchOpsRegistry.register_func`: the target names are the
function's own name followed by the aliases, when given. -/
def register_func (m : Registry) (f : Handler) (f_name : Name)
    (torch_alias : Option (List Name)) (override : Bool) :
    Registry × Option RegError :=
  registerNames f override m (f_name :: torch_alias.getD [])

/-- Model of `TorchOpsRegistry.__contains__`: a raw dict-key membership test,
with no canonicalization. -/
def containsName (m : Registry) (k : Name) : Bool := (m k).isSome

/-- Model of `TorchOpsRegistry.is_inplace_op`. -/
def is_inplace_op (s : Name) : Bool :=
  !(startsWithUU s && endsWithUU s) && endsWithU s

/-- The canonicalization applied by `get_func` before lookup, as a function on
names (used to state claims about canonicalized queries). -/
def canonName (s : Name) : Name :=
  if startsWithUU s && endsWithUU s then stripDunder s
  else if endsWithU s then s.dropLast
  else s

def regC6w : Registry := set_func_by_name emptyRegistry 7 ['a', 'd', 'd']

/-- A registry with handler 0 at name `x` and handler 1 at name `__x`, both
reachable through `register_func` (neither target ends in an underscore). -/
def regC6ce : Registry :=
  set_func_by_name (set_func_by_name emptyRegistry 0 ['x']) 1 ['_', '_', 'x']

def regC7w : Registry := set_func_by_name emptyRegistry 0 ['s', 'u', 'b']

/-- A registry in which the name `x_` is bound (as the source permits through
`set_func_by_name` / `__setitem__`). -/
def regC7ce : Registry := set_func_by_name emptyRegistry 0 ['x', '_']

/-- Registry with only the canonical name `add` bound. -/
def regC8reg : Registry := set_func_by_name emptyRegistry 0 ['a', 'd', 'd']

def regC10w : Registry := set_func_by_name emptyRegistry 3 ['a', 'n', 'd']

/-! ## MIL graph model

The IR of the noop-elimination pass. Variables are numeric identifiers; the
immutable per-variable data (symbolic type, optional compile-time constant
value, producing op) lives in an environment, since the pass never changes it
— rewrites only change which variables the operations reference. -/

/-- A symbolic type: shape plus element dtype (`Var.sym_type`). -/
structure SymType where
  shape : List Int
  dtype : String
deriving DecidableEq

/-- Per-variable data: `Var.sym_type`, `Var.val` (the compile-time constant as
a flattened element list, when known) and `Var.op` (the producing op's id, or
none for a block/function input). -/
structure VarData where
  sym_type : SymType
  val : Option (List Int)
  producer : Option Nat
deriving DecidableEq

/-- The variable environment. -/
abbrev Env := Nat → VarData

mutual
/-- A MIL operation: id, type tag, input variables (positional in place of
MIL's named inputs), output variables, and nested blocks. -/
inductive Op : Type where
  | mk (opid : Nat) (op_type : String) (inputs : List Nat) (outputs : List Nat)
      (blocks : List Block) : Op
/-- A MIL block: an ordered operation list plus declared output variables. -/
inductive Block : Type where
  | mk (operations : List Op) (outputs : List Nat) : Block
end

def Op.opid : Op → Nat
  | .mk i _ _ _ _ => i

def Op.op_type : Op → String
  | .mk _ t _ _ _ => t

def Op.inputs : Op → List Nat
  | .mk _ _ ins _ _ => ins

def Op.outputs : Op → List Nat
  | .mk _ _ _ outs _ => outs

def Op.blocks : Op → List Block
  | .mk _ _ _ _ bs => bs

def Block.operations : Block → List Op
  | .mk ops _ => ops

def Block.outputs : Block → List Nat
  | .mk _ outs => outs

instance : Inhabited Op := ⟨.mk 0 "" [] [] []⟩

mutual
/-- Number of operations contained in an op (itself plus its nested blocks). -/
def opCountOp : Op → Nat
  | .mk _ _ _ _ bs => 1 + opCountBlocks bs

def opCountBlocks : List Block → Nat
  | [] => 0
  | b :: bs => opCountB b + opCountBlocks bs

/-- Total operation count of a block, nested blocks included. -/
def opCountB : Block → Nat
  | .mk ops _ => opCountOps ops

def opCountOps : List Op → Nat
  | [] => 0
  | o :: os => opCountOp o + opCountOps os
end

mutual
/-- Whether an op uses variable `v`: as a direct input, or anywhere inside its
nested blocks (including as a nested block output). -/
def opUses (v : Nat) : Op → Bool
  | .mk _ _ ins _ bs => ins.contains v || blocksUse v bs

def blocksUse (v : Nat) : List Block → Bool
  | [] => false
  | b :: bs => blockUses v b || blocksUse v bs

def blockUses (v : Nat) : Block → Bool
  | .mk ops outs => opsUse v ops || outs.contains v

def opsUse (v : Nat) : List Op → Bool
  | [] => false
  | o :: os => opUses v o || opsUse v os
end

def substVar (old new v : Nat) : Nat := if v = old then new else v

mutual
/-- Replace every use of `old` by `new` in an op: in its direct inputs and
recursively in its nested blocks. -/
def substOp (old new : Nat) : Op → Op
  | .mk i t ins outs bs => .mk i t (ins.map (substVar old new)) outs
      (substBlocks old new bs)

def substBlocks (old new : Nat) : List Block → List Block
  | [] => []
  | b :: bs => substBlock old new b :: substBlocks old new bs

def substBlock (old new : Nat) : Block → Block
  | .mk ops outs => .mk (substOps old new ops) (outs.map (substVar old new))

def substOps (old new : Nat) : List Op → List Op
  | [] => []
  | o :: os => substOp old new o :: substOps old new os
end

/-! ## Graph-model mutation primitives

These two primitives are consumed by the pass but implemented in MIL's Block
class, which is outside the given sources. -/

/-- Modelled from the spec: the Graph Model's
`replace_uses_of_var_after_op(anchor_op, old_var, new_var)` — replace every
use of `old` that occurs at or after the anchor position in program order with
`new`; uses strictly before the anchor are left untouched. (The matcher
guarantees `old` is not among the enclosing block's declared outputs, so only
the operation list is rewritten here; uses inside nested blocks of later
operations are rewritten recursively.) -/
def replaceUsesFrom (old new : Nat) : Nat → List Op → List Op
  | _, [] => []
  | 0, o :: os => substOp old new o :: replaceUsesFrom old new 0 os
  | k + 1, o :: os => o :: replaceUsesFrom old new k os

/-- Modelled from the spec: the Graph Model's `remove_ops([op])` — delete the
single operation at the given position. -/
def removeAt (pos : Nat) (ops : List Op) : List Op :=
  ops.take pos ++ ops.drop (pos + 1)

/-- Position of the anchor (the surviving variable's producing op) in the
operation list. A producer of `none` (a block/function input) or a producer
outside this block anchors at position 0: every op of the block is after it
in program order. -/
def anchorIdx (env : Env) (ops : List Op) (sv : Nat) : Nat :=
  match (env sv).producer with
  | none => 0
  | some pid =>
    match ops.findIdx? (fun o => o.opid == pid) with
    | some i => i
    | none => 0

/-- The shared tail of every removal strategy:
`op.enclosing_block.replace_uses_of_var_after_op(anchor_op=input_op,
old_var=op.outputs[0], new_var=input_var)` followed by
`block.remove_ops([op])`. -/
def rewireAndRemove (env : Env) (ops : List Op) (pos : Nat) (sv outv : Nat) :
    List Op :=
  removeAt pos (replaceUsesFrom outv sv (anchorIdx env ops sv) ops)

/-! ## Removal strategies -/

/-- Model of `np.all(var.val == c)` guarded by `var.val is not None`:
the constant value is known and every element equals `c`. -/
def constAllEq (env : Env) (v : Nat) (c : Int) : Bool :=
  match (env v).val with
  | some elems => elems.all (fun e => e == c)
  | none => false

/-- The op's `x` input. -/
def xVar (op : Op) : Nat := op.inputs.getD 0 0

/-- The op's `y` input. -/
def yVar (op : Op) : Nat := op.inputs.getD 1 0

/-- The op's first output, `op.outputs[0]`. -/
def outVar (op : Op) : Nat := op.outputs.getD 0 0

/-- The `alpha` input of `linear_activation`. -/
def alphaVar (op : Op) : Nat := op.inputs.getD 1 0

/-- The `beta` input of `linear_activation`. -/
def betaVar (op : Op) : Nat := op.inputs.getD 2 0

/-- The `perm` input of `transpose`. -/
def permVar (op : Op) : Nat := op.inputs.getD 1 0

/-- The op a strategy examines: the op at position `pos` of the block's
operation list. -/
def opAt (ops : List Op) (pos : Nat) : Op := ops.getD pos default

/-- One side's test in `_remove_elementwise_binary`:
`c is not None and var.val is not None and np.all(var.val == c)`. -/
def ebConstMatch (env : Env) (v : Nat) : Option Int → Bool
  | some c => constAllEq env v c
  | none => false

/-- The operand that survives in `_remove_elementwise_binary`: if `op.x`
matches the constant, the survivor is `op.y`; otherwise if `op.y` matches, the
survivor is `op.x`; otherwise none. -/
def ebSurvivor (env : Env) (op : Op) (x y : Option Int) : Option Nat :=
  if ebConstMatch env (xVar op) x then some (yVar op)
  else if ebConstMatch env (yVar op) y then some (xVar op)
  else none

/-- Model of `_remove_elementwise_binary(op, block, x, y)`: pick the surviving
operand, require its symbolic type to equal the output's symbolic type (the
broadcast guard), then rewire and delete. -/
def remove_elementwise_binary (env : Env) (ops : List Op) (pos : Nat)
    (x y : Option Int) : List Op × Bool :=
  match ebSurvivor env (opAt ops pos) x y with
  | none => (ops, false)
  | some sv =>
    if (env sv).sym_type = (env (outVar (opAt ops pos))).sym_type then
      (rewireAndRemove env ops pos sv (outVar (opAt ops pos)), true)
    else (ops, false)

/-- Model of `remove_elementwise(op, block)`: dispatch on the op type with the
identity constants of the code (`add`: 0 on either side, `mul`: 1 on either
side, `floor_div`/`pow`/`real_div`: 1 on the right only, `sub`: 0 on the
right only). -/
def remove_elementwise (env : Env) (ops : List Op) (pos : Nat) :
    List Op × Bool :=
  if (opAt ops pos).op_type = "add" then
    remove_elementwise_binary env ops pos (some 0) (some 0)
  else if (opAt ops pos).op_type = "mul" then
    remove_elementwise_binary env ops pos (some 1) (some 1)
  else if (opAt ops pos).op_type ∈ ["floor_div", "pow", "real_div"] then
    remove_elementwise_binary env ops pos none (some 1)
  else if (opAt ops pos).op_type = "sub" then
    remove_elementwise_binary env ops pos none (some 0)
  else (ops, false)

/-- Model of `remove_same_shape(op, block)`. -/
def remove_same_shape (env : Env) (ops : List Op) (pos : Nat) :
    List Op × Bool :=
  if (env (xVar (opAt ops pos))).sym_type =
      (env (outVar (opAt ops pos))).sym_type then
    (rewireAndRemove env ops pos (xVar (opAt ops pos))
      (outVar (opAt ops pos)), true)
  else (ops, false)

/-- Model of `remove_linear(op, block)`: the scalar `alpha` must be 1 and the
scalar `beta` must be 0 (scalars are one-element constant values; an unknown
value compares unequal, as in `None != 1`). -/
def remove_linear (env : Env) (ops : List Op) (pos : Nat) : List Op × Bool :=
  if (env (alphaVar (opAt ops pos))).val = some [1] ∧
      (env (betaVar (opAt ops pos))).val = some [0] then
    (rewireAndRemove env ops pos (xVar (opAt ops pos))
      (outVar (opAt ops pos)), true)
  else (ops, false)

/-- The permutation normalization in `remove_transpose`:
`p if p >= 0 else p + len(op.perm.val)`. -/
def normalizePerm (l : List Int) : List Int :=
  l.map (fun p => if 0 ≤ p then p else p + (l.length : Int))

/-- Model of `remove_transpose(op, block)`: normalize the permutation, decline
unless it equals its ascending sort (`(perm != sorted_perm).any()`), else
rewire and delete. (`op.perm.val` must be a known constant in MIL; an absent
value is read as the empty list.) -/
def remove_transpose (env : Env) (ops : List Op) (pos : Nat) : List Op × Bool :=
  if normalizePerm (((env (permVar (opAt ops pos))).val).getD []) ≠
      List.insertionSort (fun a b => a ≤ b)
        (normalizePerm (((env (permVar (opAt ops pos))).val).getD [])) then
    (ops, false)
  else
    (rewireAndRemove env ops pos (xVar (opAt ops pos))
      (outVar (opAt ops pos)), true)

/-! ## Pattern matching and the elimination loop -/

/-- The four removal strategies of `op_to_removal_fn`. -/
inductive RemovalFn where
  | elementwise
  | same_shape
  | linear
  | transpose
deriving DecidableEq

/-- `_SUPPORTED_OPS`. -/
def SUPPORTED_OPS : List String :=
  ["add", "mul", "floor_div", "pow", "real_div", "sub", "reshape", "split",
   "slice_by_index", "slice_by_size", "pad", "tile", "transpose",
   "upsample_nearest_neighbor", "upsample_bilinear", "resize_bilinear", "crop",
   "linear_activation"]

/-- `op_to_removal_fn`: operator type tag to removal strategy. -/
def op_to_removal_fn (t : String) : Option RemovalFn :=
  if t ∈ ["add", "mul", "floor_div", "pow", "real_div", "sub"] then
    some .elementwise
  else if t ∈ ["reshape", "split", "slice_by_index", "slice_by_size", "pad",
      "tile", "upsample_nearest_neighbor", "upsample_bilinear",
      "resize_bilinear", "crop"] then
    some .same_shape
  else if t = "transpose" then some .transpose
  else if t = "linear_activation" then some .linear
  else none

/-- Model of `_match_pattern(op)` against the enclosing block's declared
outputs: abort if the first output is a block output; require a supported op
type and exactly one output. -/
def _match_pattern (outs : List Nat) (op : Op) : Option RemovalFn :=
  if outVar op ∈ outs then none
  else if op.op_type ∈ SUPPORTED_OPS then
    if op.outputs.length ≠ 1 then none
    else op_to_removal_fn op.op_type
  else none

/-- Run a removal strategy (`remove_fn(op, block)`) on the op at `pos`. -/
def runRemovalFn (fn : RemovalFn) (env : Env) (ops : List Op) (pos : Nat) :
    List Op × Bool :=
  match fn with
  | .elementwise => remove_elementwise env ops pos
  | .same_shape => remove_same_shape env ops pos
  | .linear => remove_linear env ops pos
  | .transpose => remove_transpose env ops pos

/-- The boolean decision of `_remove_elementwise_binary` as a function of the
examined op alone. -/
def ebDecision (env : Env) (op : Op) (x y : Option Int) : Bool :=
  match ebSurvivor env op x y with
  | none => false
  | some sv => (env sv).sym_type = (env (outVar op)).sym_type

/-- The boolean decision of a strategy, as a function of the examined op alone
(strategies read only the op's variables; the block is touched only when they
rewrite). -/
def removalSucceeds (fn : RemovalFn) (env : Env) (op : Op) : Bool :=
  match fn with
  | .elementwise =>
    if op.op_type = "add" then ebDecision env op (some 0) (some 0)
    else if op.op_type = "mul" then ebDecision env op (some 1) (some 1)
    else if op.op_type ∈ ["floor_div", "pow", "real_div"] then
      ebDecision env op none (some 1)
    else if op.op_type = "sub" then ebDecision env op none (some 0)
    else false
  | .same_shape => (env (xVar op)).sym_type = (env (outVar op)).sym_type
  | .linear =>
    (env (alphaVar op)).val = some [1] ∧ (env (betaVar op)).val = some [0]
  | .transpose =>
    normalizePerm (((env (permVar op)).val).getD []) =
      List.insertionSort (fun a b => a ≤ b)
        (normalizePerm (((env (permVar op)).val).getD []))

/-- Run the nested blocks of an op to their own fixed points first
(`for b in op.blocks: while block_changed: ...`), via the given fixed-point
runner. -/
def fixOp (fix : Block → Block) : Op → Op
  | .mk i t ins outs bs => .mk i t ins outs (bs.map fix)

/-- One scan of `_noop_elimination_block` over the remaining ops (`rest`),
with `done` the already-visited prefix (the iteration is over a snapshot;
nested-block rewrites of visited ops persist). On the first successful
rewrite the scan aborts and reports a change; ops owning nested blocks are
never removal candidates; a declined strategy leaves the block untouched and
scanning continues. -/
def scanOps (fix : Block → Block) (env : Env) (outs : List Nat) :
    List Op → List Op → List Op × Bool
  | done, [] => (done, false)
  | done, op :: rest =>
    let op1 := fixOp fix op
    if 0 < op1.blocks.length then scanOps fix env outs (done ++ [op1]) rest
    else
      match _match_pattern outs op1 with
      | none => scanOps fix env outs (done ++ [op1]) rest
      | some fn =>
        let r := runRemovalFn fn env (done ++ op1 :: rest) done.length
        if r.2 then (r.1, true)
        else scanOps fix env outs (done ++ [op1]) rest

/-- One call of `_noop_elimination_block(block)`, parameterized by the runner
used for nested blocks: scan the block's operations once, returning the
(possibly rewritten) block and whether a rewrite happened at this level. -/
def elimOnceWith (fix : Block → Block) (env : Env) (b : Block) : Block × Bool :=
  let r := scanOps fix env b.outputs [] b.operations
  (Block.mk r.1 b.outputs, r.2)

/-- The fixed-point loop `while block_changed: block_changed =
self._noop_elimination_block(b)`, with a structural fuel bound; the fuel
`opCountB b + 1` is always sufficient (each rewrite strictly decreases the
operation count) and is what `noop_elimination_block_fix` supplies. -/
def noopEliminationBounded (env : Env) : Nat → Block → Block
  | 0, b => b
  | n + 1, b =>
    let r := elimOnceWith (noopEliminationBounded env n) env b
    if r.2 then noopEliminationBounded env n r.1 else r.1

/-- Run a block to its elimination fixed point. -/
def noop_elimination_block_fix (env : Env) (b : Block) : Block :=
  noopEliminationBounded env (opCountB b + 1) b

/-- The canonical single scan: `_noop_elimination_block` with nested blocks
run to their fixed points. -/
def elimOnceB (env : Env) (b : Block) : Block × Bool :=
  elimOnceWith (noop_elimination_block_fix env) env b

/-- A program: function names with their top-level blocks
(`prog.functions`). -/
abbrev Program := List (String × Block)

/-- Model of `noop_elimination.apply(prog)`: run every function's block to the
elimination fixed point (`self.ops_to_skip` is always empty: the
`set_ops_to_skip` hook is a no-op). -/
def noop_elimination_apply (env : Env) (p : Program) : Program :=
  p.map (fun f => (f.1, noop_elimination_block_fix env f.2))

/-! ## Claim-side predicates for C1 -/

/-- Follows claim C1's words: one operand is a compile-time constant equal to
the operator's identity element on an allowed side (either side for add/mul,
right only for sub/real_div/floor_div/pow) and the surviving (other) operand's
symbolic type equals the output's. -/
def claimRemovableC1 (env : Env) (op : Op) : Bool :=
  let tyEq (v : Nat) : Bool := (env v).sym_type = (env (outVar op)).sym_type
  let leftOk (c : Int) : Bool := constAllEq env (xVar op) c && tyEq (yVar op)
  let rightOk (c : Int) : Bool := constAllEq env (yVar op) c && tyEq (xVar op)
  if op.op_type = "add" then leftOk 0 || rightOk 0
  else if op.op_type = "mul" then leftOk 1 || rightOk 1
  else if op.op_type = "sub" then rightOk 0
  else if op.op_type ∈ ["floor_div", "pow", "real_div"] then rightOk 1
  else false

/-- Claim C1 as amended: like `claimRemovableC1`, but when both operands of an
add/mul are the identity constant, only the left-operand match is taken — the
survivor is the right operand and only the right operand's type is checked. -/
def amendedRemovableC1 (env : Env) (op : Op) : Bool :=
  if op.op_type = "add" then
    (if constAllEq env (xVar op) 0 then
      ((env (yVar op)).sym_type = (env (outVar op)).sym_type : Bool)
    else constAllEq env (yVar op) 0 &&
      ((env (xVar op)).sym_type = (env (outVar op)).sym_type))
  else if op.op_type = "mul" then
    (if constAllEq env (xVar op) 1 then
      ((env (yVar op)).sym_type = (env (outVar op)).sym_type : Bool)
    else constAllEq env (yVar op) 1 &&
      ((env (xVar op)).sym_type = (env (outVar op)).sym_type))
  else if op.op_type ∈ ["floor_div", "pow", "real_div"] then
    constAllEq env (yVar op) 1 &&
      ((env (xVar op)).sym_type = (env (outVar op)).sym_type)
  else if op.op_type = "sub" then
    constAllEq env (yVar op) 0 &&
      ((env (xVar op)).sym_type = (env (outVar op)).sym_type)
  else false

/-- An op the scan visits without rewriting: it owns nested blocks, or the
matcher rejects it, or the matched strategy declines. -/
def declinedAt (fix : Block → Block) (env : Env) (outs : List Nat)
    (op : Op) : Prop :=
  0 < (fixOp fix op).blocks.length
  ∨ _match_pattern outs (fixOp fix op) = none
  ∨ ∃ fn, _match_pattern outs (fixOp fix op) = some fn ∧
      removalSucceeds fn env (fixOp fix op) = false

/-! ## Concrete graphs for the elimination-pass claims -/

def symS : SymType := ⟨[4, 4], "fp32"⟩

def symT : SymType := ⟨[4, 1], "fp32"⟩

/-- Environment for the C1 counterexample: `add(%1, %2)` where both operands
are constant zero, `%1` has the output's type `symS` but `%2` has the
different type `symT`. -/
def envC1c : Env := fun v =>
  if v = 1 then ⟨symS, some [0], none⟩
  else if v = 2 then ⟨symT, some [0], none⟩
  else if v = 3 then ⟨symS, none, some 9⟩
  else ⟨symS, none, none⟩

def opsC1c : List Op := [Op.mk 9 "add" [1, 2] [3] []]

def symW : SymType := ⟨[2], "fp32"⟩

/-- Environment for the C1 witness: `add(%1, %2)` with `%2` a constant zero
and all types equal. -/
def envC1w : Env := fun v =>
  if v = 1 then ⟨symW, none, none⟩
  else if v = 2 then ⟨symW, some [0], none⟩
  else if v = 3 then ⟨symW, none, some 5⟩
  else ⟨symW, none, none⟩

def opsC1w : List Op := [Op.mk 5 "add" [1, 2] [3] []]

/-- Block for the C2 witness: a single `add` whose sole output is a declared
block output. -/
def envC2w : Env := fun v =>
  if v = 1 then ⟨symW, none, none⟩
  else if v = 2 then ⟨symW, some [0], none⟩
  else if v = 3 then ⟨symW, none, some 5⟩
  else ⟨symW, none, none⟩

def blkC2w : Block := Block.mk [Op.mk 5 "add" [1, 2] [3] []] [3]

/-- Block for the C3 witness: a removable `reshape` feeding an `add` that
produces the block output. -/
def envC3w : Env := fun v =>
  if v = 1 then ⟨symW, none, none⟩
  else if v = 2 then ⟨symW, none, some 1⟩
  else if v = 3 then ⟨symW, some [0], none⟩
  else if v = 4 then ⟨symW, none, some 2⟩
  else ⟨symW, none, none⟩

def blkC3w : Block :=
  Block.mk [Op.mk 1 "reshape" [1] [2] [], Op.mk 2 "add" [2, 3] [4] []] [4]

def symW3 : SymType := ⟨[2, 3, 4], "fp32"⟩

/-- Environment for the C5 witness: `transpose(%1, perm = (-3, -2, -1))`. -/
def envC5w : Env := fun v =>
  if v = 1 then ⟨symW3, none, none⟩
  else if v = 2 then ⟨symW3, some [-3, -2, -1], none⟩
  else if v = 3 then ⟨symW3, none, some 7⟩
  else ⟨symW3, none, none⟩

def opsC5w : List Op := [Op.mk 7 "transpose" [1, 2] [3] []]

mutual
theorem substOp_count (old new : Nat) (o : Op) :
    opCountOp (substOp old new o) = opCountOp o := by
  cases o with
  | mk i t ins outs bs =>
    simp [substOp, opCountOp, substBlocks_count old new bs]

theorem substBlocks_count (old new : Nat) (bs : List Block) :
    opCountBlocks (substBlocks old new bs) = opCountBlocks bs := by
  cases bs with
  | nil => rfl
  | cons b tl =>
    simp [substBlocks, opCountBlocks, substBlock_count old new b,
      substBlocks_count old new tl]

theorem substBlock_count (old new : Nat) (b : Block) :
    opCountB (substBlock old new b) = opCountB b := by
  cases b with
  | mk ops outs => simp [substBlock, opCountB, substOps_count old new ops]

theorem substOps_count (old new : Nat) (os : List Op) :
    opCountOps (substOps old new os) = opCountOps os := by
  cases os with
  | nil => rfl
  | cons o tl =>
    simp [substOps, opCountOps, substOp_count old new o,
      substOps_count old new tl]
end

theorem substVar_ne {old new : Nat} (hne : old ≠ new) (v : Nat) :
    substVar old new v ≠ old := by
  unfold substVar
  split
  · exact fun h => hne h.symm
  · assumption

theorem contains_map_substVar {old new : Nat} (hne : old ≠ new)
    (l : List Nat) : (l.map (substVar old new)).contains old = false := by
  induction l with
  | nil => rfl
  | cons v t ih =>
    simp only [List.map_cons, List.contains_cons, Bool.or_eq_false_iff]
    refine ⟨?_, ih⟩
    exact beq_eq_false_iff_ne.mpr (Ne.symm (substVar_ne hne v))

mutual
theorem substOp_not_uses {old new : Nat} (hne : old ≠ new) (o : Op) :
    opUses old (substOp old new o) = false := by
  cases o with
  | mk i t ins outs bs =>
    simp only [substOp, opUses, Bool.or_eq_false_iff]
    exact ⟨contains_map_substVar hne ins, substBlocks_not_use hne bs⟩

theorem substBlocks_not_use {old new : Nat} (hne : old ≠ new)
    (bs : List Block) : blocksUse old (substBlocks old new bs) = false := by
  cases bs with
  | nil => rfl
  | cons b tl =>
    simp only [substBlocks, blocksUse, Bool.or_eq_false_iff]
    exact ⟨substBlock_not_uses hne b, substBlocks_not_use hne tl⟩

theorem substBlock_not_uses {old new : Nat} (hne : old ≠ new) (b : Block) :
    blockUses old (substBlock old new b) = false := by
  cases b with
  | mk ops outs =>
    simp only [substBlock, blockUses, Bool.or_eq_false_iff]
    exact ⟨substOps_not_use hne ops, contains_map_substVar hne outs⟩

theorem substOps_not_use {old new : Nat} (hne : old ≠ new) (os : List Op) :
    opsUse old (substOps old new os) = false := by
  cases os with
  | nil => rfl
  | cons o tl =>
    simp only [substOps, opsUse, Bool.or_eq_false_iff]
    exact ⟨substOp_not_uses hne o, substOps_not_use hne tl⟩
end

/-! ## Registry lemmas -/

theorem get_func_eq_canon (m : Registry) (s : Name) :
    get_func m s = m (canonName s) := by
  unfold get_func canonName
  split
  · rfl
  · split <;> rfl

theorem startsWithUU_eq_false_of_not_mem {n : Name} (h : '_' ∉ n) :
    startsWithUU n = false := by
  match n with
  | [] => rfl
  | [c] => rfl
  | c1 :: c2 :: t =>
    have h1 : c1 ≠ '_' := fun he => h (by simp [he])
    simp [startsWithUU, h1]

theorem endsWithU_eq_false_of_not_mem {n : Name} (h : '_' ∉ n) :
    endsWithU n = false := by
  unfold endsWithU
  match hr : n.reverse with
  | [] => rfl
  | c :: t =>
    have hc : c ∈ n := by
      rw [← List.mem_reverse, hr]; exact List.mem_cons_self c t
    have : c ≠ '_' := fun he => h (he ▸ hc)
    simp [this]

theorem endsWithU_of_endsWithUU {n : Name} (h : endsWithUU n = true) :
    endsWithU n = true := by
  unfold endsWithUU at h
  unfold endsWithU
  cases hr : n.reverse with
  | nil => rw [hr] at h; simp [startsWithUU] at h
  | cons c t =>
    rw [hr] at h
    cases t with
    | nil => simp [startsWithUU] at h
    | cons d t2 =>
      simp only [startsWithUU, Bool.and_eq_true, beq_iff_eq] at h
      simp [h.1]

theorem endsWithU_concat (k : Name) : endsWithU (k ++ ['_']) = true := by
  unfold endsWithU
  rw [List.reverse_append]
  rfl

theorem endsWithUU_concat_of_not (k : Name) (hk : endsWithU k = false) :
    endsWithUU (k ++ ['_']) = false := by
  unfold endsWithUU
  rw [List.reverse_append]
  show startsWithUU ('_' :: k.reverse) = false
  unfold endsWithU at hk
  cases hr : k.reverse with
  | nil => rfl
  | cons c t =>
    rw [hr] at hk
    simp only [beq_iff_eq] at hk
    simp [startsWithUU, hk]

theorem stripDunder_wrap (n : Name) :
    stripDunder ('_' :: '_' :: (n ++ ['_', '_'])) = n := by
  unfold stripDunder
  have h2 : n ++ ['_', '_'] = (n ++ ['_']) ++ ['_'] := by simp
  simp only [List.drop_succ_cons, List.drop_zero, h2]
  rw [List.dropLast_concat, List.dropLast_concat]

theorem startsWithUU_wrap (l : Name) : startsWithUU ('_' :: '_' :: l) = true := rfl

theorem endsWithUU_wrap (n : Name) :
    endsWithUU ('_' :: '_' :: (n ++ ['_', '_'])) = true := by
  unfold endsWithUU
  rw [List.reverse_cons, List.reverse_cons, List.reverse_append]
  rfl

theorem get_func_dunder_wrap (m : Registry) (n : Name) :
    get_func m ('_' :: '_' :: (n ++ ['_', '_'])) = m n := by
  unfold get_func
  rw [startsWithUU_wrap, endsWithUU_wrap, stripDunder_wrap]
  rfl

theorem get_func_raw (m : Registry) (n : Name) (hu : '_' ∉ n) :
    get_func m n = m n := by
  unfold get_func
  rw [startsWithUU_eq_false_of_not_mem hu, endsWithU_eq_false_of_not_mem hu]
  rfl

/-- Shared helper: a target name ending in an underscore anywhere in the list
forces `register_func` to raise. -/
theorem registerNames_err_of_underscore (f : Handler) (ov : Bool) :
    ∀ (m : Registry) (names : List Name) (n : Name), n ∈ names →
    endsWithU n = true → ((registerNames f ov m names).2).isSome = true := by
  intro m names
  induction names generalizing m with
  | nil => intro n hn; exact absurd hn (by simp)
  | cons h t ih =>
    intro n hn hu
    unfold registerNames
    split
    · simp
    · split
      · simp
      · rcases List.mem_cons.mp hn with he | ht
        · subst he; simp_all
        · exact ih _ n ht hu

/-- Shared helper: every binding `registerNames` makes maps a name to `f`, so a
name already bound to `f` stays bound to `f`. -/
theorem registerNames_keeps (f : Handler) (ov : Bool) :
    ∀ (m : Registry) (names : List Name) (n : Name), m n = some f →
    (registerNames f ov m names).1 n = some f := by
  intro m names
  induction names generalizing m with
  | nil => intro n hn; exact hn
  | cons h t ih =>
    intro n hn
    unfold registerNames
    split
    · exact hn
    · split
      · exact hn
      · apply ih
        unfold set_func_by_name
        split
        · rfl
        · exact hn

/-- Shared helper: with `override = false`, a name already bound anywhere in
the target list forces an error. -/
theorem registerNames_err_of_dup (f : Handler) :
    ∀ (m : Registry) (names : List Name) (n : Name), n ∈ names →
    (m n).isSome = true → ((registerNames f false m names).2).isSome = true := by
  intro m names
  induction names generalizing m with
  | nil => intro n hn; exact absurd hn (by simp)
  | cons h t ih =>
    intro n hn hb
    unfold registerNames
    split
    · simp
    · split
      · simp
      · rcases List.mem_cons.mp hn with he | ht
        · subst he; simp_all
        · apply ih _ n ht
          unfold set_func_by_name
          split
          · simp
          · exact hb

theorem get_func_append_underscore (m : Registry) (k : Name)
    (hk : endsWithU k = false) : get_func m (k ++ ['_']) = get_func m k := by
  unfold get_func
  rw [endsWithUU_concat_of_not k hk, endsWithU_concat, Bool.and_false,
    List.dropLast_concat, hk]
  have hkuu : (startsWithUU k && endsWithUU k) = false := by
    cases he : endsWithUU k with
    | false => simp [he]
    | true => rw [endsWithU_of_endsWithUU he] at hk; cases hk
  rw [hkuu]
  rfl

/-! ## Registry: claims -/

/-- Claim C6 (amended): resolving a dunder-wrapped underscore-free registered
name and resolving the bare name agree; resolving a name with one extra
trailing underscore agrees with resolving the bare name, provided the bare
name does not itself end in an underscore (otherwise appending an underscore
may produce a dunder-wrapped name and take the other canonicalization rule);
and the dunder-stripping rule is checked first and to the exclusion of the
trailing-underscore rule. -/
theorem registry_C6_canonicalization :
    (∀ (m : Registry) (n : Name), '_' ∉ n → ((m n).isSome = true) →
      get_func m ('_' :: '_' :: (n ++ ['_', '_'])) = get_func m n)
    ∧ (∀ (m : Registry) (k : Name), endsWithU k = false →
      get_func m (k ++ ['_']) = get_func m k)
    ∧ (∀ (m : Registry) (s : Name), (startsWithUU s && endsWithUU s) = true →
      get_func m s = m (stripDunder s)) := by
  refine ⟨fun m n hu _ => ?_, fun m k hk => get_func_append_underscore m k hk,
    fun m s hs => ?_⟩
  · rw [get_func_dunder_wrap, get_func_raw m n hu]
  · unfold get_func
    rw [hs]
    rfl

theorem registry_C6_witness :
    get_func regC6w ('_' :: '_' :: (['a', 'd', 'd'] ++ ['_', '_'])) =
      get_func regC6w ['a', 'd', 'd']
    ∧ get_func regC6w (['a', 'd', 'd'] ++ ['_']) = get_func regC6w ['a', 'd', 'd']
    ∧ get_func regC6w ['_', '_', 'x', '_', '_'] =
      regC6w (stripDunder ['_', '_', 'x', '_', '_']) :=
  ⟨registry_C6_canonicalization.1 regC6w ['a', 'd', 'd'] (by decide) (by decide),
   registry_C6_canonicalization.2.1 regC6w ['a', 'd', 'd'] (by decide),
   registry_C6_canonicalization.2.2 regC6w ['_', '_', 'x', '_', '_'] (by decide)⟩

/-- Claim C6 as stated is false: for the name `__x_`, appending a single
trailing underscore produces the dunder-wrapped name `__x__`, so the two
resolutions consult different keys (`x` versus `__x`). -/
theorem registry_C6_counterexample :
    ¬ (get_func regC6ce (['_', '_', 'x', '_'] ++ ['_']) =
       get_func regC6ce ['_', '_', 'x', '_']) := by decide

/-- Claim C7 (amended): a target name ending in an underscore always raises;
re-registering a bound name without override always raises; re-registering a
bound name with override succeeds and replaces the handler, provided the name
does not end in an underscore (the in-place-name check fires before the
override flag is ever consulted). -/
theorem registry_C7_registration :
    (∀ (m : Registry) (f : Handler) (ov : Bool) (names : List Name) (n : Name),
      n ∈ names → endsWithU n = true →
      ((registerNames f ov m names).2).isSome = true)
    ∧ (∀ (m : Registry) (f : Handler) (names : List Name) (n : Name),
      n ∈ names → (m n).isSome = true →
      ((registerNames f false m names).2).isSome = true)
    ∧ (∀ (m : Registry) (f : Handler) (n : Name), (m n).isSome = true →
      endsWithU n = false →
      registerNames f true m [n] = (set_func_by_name m f n, none)) := by
  refine ⟨fun m f ov names n hn hu =>
      registerNames_err_of_underscore f ov m names n hn hu,
    fun m f names n hn hb => registerNames_err_of_dup f m names n hn hb,
    fun m f n _ hn => ?_⟩
  simp [registerNames, hn]

theorem registry_C7_witness :
    ((registerNames 0 false emptyRegistry [['s', 'u', 'b', '_']]).2).isSome = true
    ∧ ((registerNames 1 false regC7w [['s', 'u', 'b']]).2).isSome = true
    ∧ registerNames 1 true regC7w [['s', 'u', 'b']] =
      (set_func_by_name regC7w 1 ['s', 'u', 'b'], none) :=
  ⟨registry_C7_registration.1 emptyRegistry 0 false [['s', 'u', 'b', '_']]
      ['s', 'u', 'b', '_'] (by simp) (by decide),
   registry_C7_registration.2.1 regC7w 1 [['s', 'u', 'b']] ['s', 'u', 'b']
      (by simp) (by decide),
   registry_C7_registration.2.2 regC7w 1 ['s', 'u', 'b'] (by decide) (by decide)⟩

/-- Claim C7 as stated is false: re-registering the already-bound name `x_`
with override `true` still raises, because the trailing-underscore check
precedes the override check. -/
theorem registry_C7_counterexample :
    (regC7ce ['x', '_']).isSome = true
    ∧ (registerNames 1 true regC7ce [['x', '_']]).2 ≠ none := by
  exact ⟨by decide, by decide⟩

/-- Claim C8 (amended): the containment query `__contains__` consults the raw
key only — it reports a handler exactly when the key itself is bound, with no
canonicalization; in particular `add_` is not contained even though its
canonicalization `add` is bound. -/
theorem registry_C8_containment :
    (∀ (m : Registry) (k : Name), containsName m k = (m k).isSome)
    ∧ containsName regC8reg ['a', 'd', 'd', '_'] = false
    ∧ (regC8reg (canonName ['a', 'd', 'd', '_'])).isSome = true :=
  ⟨fun _ _ => rfl, by decide, by decide⟩

/-- Claim C8 as stated is false: containment of `add_` does not hold even
though the canonicalization of `add_` (namely `add`) is bound. -/
theorem registry_C8_counterexample :
    ¬ (containsName regC8reg ['a', 'd', 'd', '_'] = true ↔
       (regC8reg (canonName ['a', 'd', 'd', '_'])).isSome = true) := by decide

/-- Claim C9: registration is not atomic on failure — if the first target name
passes validation and a later name fails, the first name is already bound to
the new handler in the registry returned alongside the error. -/
theorem registry_C9_partial_registration (m : Registry) (f : Handler)
    (ov : Bool) (n : Name) (rest : List Name) (hn : endsWithU n = false)
    (hfresh : ov = true ∨ m n = none)
    (herr : ((registerNames f ov m (n :: rest)).2).isSome = true) :
    (registerNames f ov m (n :: rest)).1 n = some f := by
  have hstep : registerNames f ov m (n :: rest) =
      registerNames f ov (set_func_by_name m f n) rest := by
    rcases hfresh with h | h
    · subst h; simp [registerNames, hn]
    · simp [registerNames, hn, h]
  rw [hstep]
  apply registerNames_keeps
  simp [set_func_by_name]

theorem registry_C9_witness :
    (registerNames 0 false emptyRegistry [['x'], ['y', '_']]).1 ['x'] = some 0 :=
  registry_C9_partial_registration emptyRegistry 0 false ['x'] [['y', '_']]
    (by decide) (Or.inr rfl) (by decide)

/-- Claim C10: every dunder-wrapped target name ends in an underscore, so its
direct registration always raises; the dunder form resolves through
`get_func`'s canonicalization to the raw binding of the stripped name. -/
theorem registry_C10_dunder_rejection :
    (∀ (m : Registry) (f : Handler) (ov : Bool) (names : List Name) (n : Name),
      n ∈ names → (startsWithUU n && endsWithUU n) = true →
      ((registerNames f ov m names).2).isSome = true)
    ∧ (∀ (m : Registry) (n : Name),
      get_func m ('_' :: '_' :: (n ++ ['_', '_'])) = m n) := by
  refine ⟨fun m f ov names n hn hd => ?_, fun m n => get_func_dunder_wrap m n⟩
  exact registerNames_err_of_underscore f ov m names n hn
    (endsWithU_of_endsWithUU (Bool.and_elim_right hd))

theorem registry_C10_witness :
    ((registerNames 0 false emptyRegistry
        [['_', '_', 'a', 'n', 'd', '_', '_']]).2).isSome = true
    ∧ get_func regC10w ('_' :: '_' :: (['a', 'n', 'd'] ++ ['_', '_'])) = some 3 := by
  constructor
  · exact registry_C10_dunder_rejection.1 emptyRegistry 0 false
      [['_', '_', 'a', 'n', 'd', '_', '_']] ['_', '_', 'a', 'n', 'd', '_', '_']
      (by simp) (by decide)
  · rw [registry_C10_dunder_rejection.2 regC10w ['a', 'n', 'd']]
    decide

/-! ## Basic lemmas: counts, substitution, field preservation -/

theorem opCountOp_pos (o : Op) : 1 ≤ opCountOp o := by
  cases o with
  | mk i t ins outs bs => simp [opCountOp]

theorem opCountOps_append (l1 l2 : List Op) :
    opCountOps (l1 ++ l2) = opCountOps l1 + opCountOps l2 := by
  induction l1 with
  | nil => simp [opCountOps]
  | cons o os ih => simp [opCountOps, ih]; omega

theorem opCountB_mk (ops : List Op) (outs : List Nat) :
    opCountB (Block.mk ops outs) = opCountOps ops := rfl

theorem opCountB_le_of_mem {b : Block} {bs : List Block} (h : b ∈ bs) :
    opCountB b ≤ opCountBlocks bs := by
  induction bs with
  | nil => cases h
  | cons hd tl ih =>
    rcases List.mem_cons.mp h with he | ht
    · subst he; simp only [opCountBlocks]; omega
    · have := ih ht; simp only [opCountBlocks]; omega

theorem opCountOp_le_of_mem {o : Op} {os : List Op} (h : o ∈ os) :
    opCountOp o ≤ opCountOps os := by
  induction os with
  | nil => cases h
  | cons hd tl ih =>
    rcases List.mem_cons.mp h with he | ht
    · subst he; simp only [opCountOps]; omega
    · have := ih ht; simp only [opCountOps]; omega

theorem opCountB_nested_lt {nb : Block} {op : Op} {os : List Op}
    (hnb : nb ∈ op.blocks) (hop : op ∈ os) : opCountB nb < opCountOps os := by
  have h1 : opCountB nb ≤ opCountBlocks op.blocks := opCountB_le_of_mem hnb
  have h2 : opCountOp op ≤ opCountOps os := opCountOp_le_of_mem hop
  cases op with
  | mk i t ins outs bs => simp [opCountOp, Op.blocks] at h1 h2 ⊢; omega

theorem operations_nil_of_count_zero {b : Block} (h : opCountB b = 0) :
    b.operations = [] := by
  cases b with
  | mk ops outs =>
    cases ops with
    | nil => rfl
    | cons o os =>
      exfalso
      have := opCountOp_pos o
      simp [opCountB, opCountOps] at h
      omega

theorem substOp_opid (old new : Nat) (o : Op) :
    (substOp old new o).opid = o.opid := by
  cases o with
  | mk i t ins outs bs => rfl

theorem substOp_outputs (old new : Nat) (o : Op) :
    (substOp old new o).outputs = o.outputs := by
  cases o with
  | mk i t ins outs bs => rfl

theorem substOp_default (old new : Nat) :
    substOp old new default = (default : Op) := rfl

theorem fixOp_opid (fix : Block → Block) (o : Op) :
    (fixOp fix o).opid = o.opid := by
  cases o with
  | mk i t ins outs bs => rfl

theorem fixOp_op_type (fix : Block → Block) (o : Op) :
    (fixOp fix o).op_type = o.op_type := by
  cases o with
  | mk i t ins outs bs => rfl

theorem fixOp_outputs (fix : Block → Block) (o : Op) :
    (fixOp fix o).outputs = o.outputs := by
  cases o with
  | mk i t ins outs bs => rfl

theorem opCountBlocks_map_le (fix : Block → Block)
    (hfix : ∀ b, opCountB (fix b) ≤ opCountB b) (bs : List Block) :
    opCountBlocks (bs.map fix) ≤ opCountBlocks bs := by
  induction bs with
  | nil => simp
  | cons b tl ih =>
    simp only [List.map_cons, opCountBlocks]
    have := hfix b
    omega

theorem fixOp_count_le (fix : Block → Block)
    (hfix : ∀ b, opCountB (fix b) ≤ opCountB b) (o : Op) :
    opCountOp (fixOp fix o) ≤ opCountOp o := by
  cases o with
  | mk i t ins outs bs =>
    simp only [fixOp, opCountOp]
    have := opCountBlocks_map_le fix hfix bs
    omega

theorem replaceUsesFrom_eq (old new : Nat) :
    ∀ (k : Nat) (ops : List Op), replaceUsesFrom old new k ops =
      ops.take k ++ (ops.drop k).map (substOp old new) := by
  intro k ops
  induction ops generalizing k with
  | nil => cases k <;> rfl
  | cons o os ih =>
    cases k with
    | zero => simp [replaceUsesFrom, ih 0]
    | succ k => simp [replaceUsesFrom, ih k]

theorem replaceUsesFrom_length (old new : Nat) (k : Nat) (ops : List Op) :
    (replaceUsesFrom old new k ops).length = ops.length := by
  rw [replaceUsesFrom_eq]
  simp
  omega

theorem replaceUsesFrom_count (old new : Nat) :
    ∀ (k : Nat) (ops : List Op),
      opCountOps (replaceUsesFrom old new k ops) = opCountOps ops := by
  intro k ops
  induction ops generalizing k with
  | nil => cases k <;> rfl
  | cons o os ih =>
    cases k with
    | zero =>
      simp [replaceUsesFrom, opCountOps, substOp_count, ih 0]
    | succ k =>
      simp [replaceUsesFrom, opCountOps, ih k]

theorem replaceUsesFrom_getD (old new : Nat) :
    ∀ (k : Nat) (ops : List Op) (pos : Nat),
      (replaceUsesFrom old new k ops).getD pos default = ops.getD pos default
      ∨ (replaceUsesFrom old new k ops).getD pos default =
          substOp old new (ops.getD pos default) := by
  intro k ops
  induction ops generalizing k with
  | nil =>
    intro pos
    cases k <;> simp [replaceUsesFrom, substOp_default]
  | cons o os ih =>
    intro pos
    cases k with
    | zero =>
      cases pos with
      | zero => right; rfl
      | succ p =>
        simpa [replaceUsesFrom, List.getD_cons_succ] using ih 0 p
    | succ k =>
      cases pos with
      | zero => left; rfl
      | succ p =>
        simpa [replaceUsesFrom, List.getD_cons_succ] using ih k p

theorem removeAt_length {pos : Nat} {ops : List Op} (h : pos < ops.length) :
    (removeAt pos ops).length + 1 = ops.length := by
  simp [removeAt]
  omega

theorem removeAt_count :
    ∀ (pos : Nat) (ops : List Op), pos < ops.length →
      opCountOps (removeAt pos ops) + opCountOp (ops.getD pos default) =
        opCountOps ops := by
  intro pos ops
  induction ops generalizing pos with
  | nil => intro h; simp at h
  | cons o os ih =>
    intro h
    cases pos with
    | zero =>
      simp [removeAt, opCountOps]
      omega
    | succ p =>
      have hp : p < os.length := by simpa using h
      have ih2 := ih p hp
      have hre : removeAt (p + 1) (o :: os) = o :: removeAt p os := by
        simp [removeAt]
      rw [hre]
      simp only [opCountOps, List.getD_cons_succ]
      omega

theorem removeAt_subset {o : Op} {pos : Nat} {ops : List Op}
    (h : o ∈ removeAt pos ops) : o ∈ ops := by
  rcases List.mem_append.mp h with h1 | h1
  · exact List.take_subset _ _ h1
  · exact List.drop_subset _ _ h1

theorem mem_removeAt_or_getD :
    ∀ (ops : List Op) (pos : Nat) (o : Op), o ∈ ops →
      o ∈ removeAt pos ops ∨ o = ops.getD pos default := by
  intro ops
  induction ops with
  | nil => intro pos o h; cases h
  | cons hd tl ih =>
    intro pos o h
    cases pos with
    | zero =>
      rcases List.mem_cons.mp h with he | ht
      · right; simpa using he
      · left; simpa [removeAt] using ht
    | succ p =>
      rcases List.mem_cons.mp h with he | ht
      · left
        simp [removeAt, he]
      · rcases ih p o ht with hin | heq
        · left
          simpa [removeAt] using Or.inr (List.mem_append.mp hin)
        · right; simpa using heq

theorem getD_append_length (l1 : List Op) (x : Op) (l2 : List Op) :
    (l1 ++ x :: l2).getD l1.length default = x := by
  induction l1 with
  | nil => rfl
  | cons hd tl ih => simpa using ih

/-! ## Uses after substitution -/

/-! ## Rewire-and-remove lemmas -/

theorem rewireAndRemove_length (env : Env) {ops : List Op} {pos : Nat}
    (sv outv : Nat) (h : pos < ops.length) :
    (rewireAndRemove env ops pos sv outv).length + 1 = ops.length := by
  unfold rewireAndRemove
  rw [removeAt_length]
  · exact replaceUsesFrom_length outv sv _ ops
  · rw [replaceUsesFrom_length]; exact h

theorem rewireAndRemove_count (env : Env) {ops : List Op} {pos : Nat}
    (sv outv : Nat) (h : pos < ops.length) :
    opCountOps (rewireAndRemove env ops pos sv outv) +
      opCountOp (ops.getD pos default) = opCountOps ops := by
  unfold rewireAndRemove
  have hlen : pos < (replaceUsesFrom outv sv (anchorIdx env ops sv) ops).length := by
    rw [replaceUsesFrom_length]; exact h
  have hc := removeAt_count pos _ hlen
  have hgd := replaceUsesFrom_getD outv sv (anchorIdx env ops sv) ops pos
  have hrc := replaceUsesFrom_count outv sv (anchorIdx env ops sv) ops
  rcases hgd with hgd | hgd <;> rw [hgd] at hc
  · omega
  · rw [substOp_count] at hc; omega

theorem take_sub_take {α : Type} (l : List α) {a b : Nat} (hab : a ≤ b)
    {x : α} (h : x ∈ l.take a) : x ∈ l.take b := by
  have : l.take a = (l.take b).take a := by
    rw [List.take_take, Nat.min_eq_left hab]
  rw [this] at h
  exact List.take_subset _ _ h

theorem rewireAndRemove_not_uses (env : Env) (ops : List Op) (pos : Nat)
    (sv outv : Nat) (hne : outv ≠ sv)
    (ha : anchorIdx env ops sv ≤ pos)
    (hpre : ∀ o ∈ ops.take (pos + 1), opUses outv o = false) :
    ∀ o ∈ rewireAndRemove env ops pos sv outv, opUses outv o = false := by
  intro o ho
  have hrep : o ∈ replaceUsesFrom outv sv (anchorIdx env ops sv) ops :=
    removeAt_subset ho
  rw [replaceUsesFrom_eq] at hrep
  rcases List.mem_append.mp hrep with h1 | h1
  · exact hpre o (take_sub_take ops (by omega) h1)
  · rcases List.mem_map.mp h1 with ⟨o0, _, heq⟩
    rw [← heq]
    exact substOp_not_uses hne o0

/-! ## Strategy lemmas -/

theorem remove_elementwise_binary_spec (env : Env) (ops : List Op) (pos : Nat)
    (x y : Option Int) :
    ((remove_elementwise_binary env ops pos x y).2 = false →
      (remove_elementwise_binary env ops pos x y).1 = ops)
    ∧ ((remove_elementwise_binary env ops pos x y).2 = true →
      ∃ sv, (sv = xVar (opAt ops pos) ∨ sv = yVar (opAt ops pos))
        ∧ (env sv).sym_type = (env (outVar (opAt ops pos))).sym_type
        ∧ (remove_elementwise_binary env ops pos x y).1 =
            rewireAndRemove env ops pos sv (outVar (opAt ops pos))) := by
  unfold remove_elementwise_binary
  split
  · simp
  · rename_i sv hs
    have hsv : sv = xVar (opAt ops pos) ∨ sv = yVar (opAt ops pos) := by
      unfold ebSurvivor at hs
      split at hs
      · right; exact (Option.some_inj.mp hs).symm
      · split at hs
        · left; exact (Option.some_inj.mp hs).symm
        · cases hs
    split
    · rename_i hty
      exact ⟨fun hf => absurd hf (by simp), fun _ => ⟨sv, hsv, hty, rfl⟩⟩
    · exact ⟨fun _ => rfl, fun ht => absurd ht (by simp)⟩

theorem remove_elementwise_cases (env : Env) (ops : List Op) (pos : Nat) :
    remove_elementwise env ops pos = (ops, false)
    ∨ ∃ x y, remove_elementwise env ops pos =
        remove_elementwise_binary env ops pos x y := by
  unfold remove_elementwise
  split
  · right; exact ⟨some 0, some 0, rfl⟩
  · split
    · right; exact ⟨some 1, some 1, rfl⟩
    · split
      · right; exact ⟨none, some 1, rfl⟩
      · split
        · right; exact ⟨none, some 0, rfl⟩
        · left; rfl

theorem remove_elementwise_spec (env : Env) (ops : List Op) (pos : Nat) :
    ((remove_elementwise env ops pos).2 = false →
      (remove_elementwise env ops pos).1 = ops)
    ∧ ((remove_elementwise env ops pos).2 = true →
      ∃ sv, (sv = xVar (opAt ops pos) ∨ sv = yVar (opAt ops pos))
        ∧ (remove_elementwise env ops pos).1 =
            rewireAndRemove env ops pos sv (outVar (opAt ops pos))) := by
  rcases remove_elementwise_cases env ops pos with h | ⟨x, y, h⟩
  · rw [h]; simp
  · rw [h]
    have hb := remove_elementwise_binary_spec env ops pos x y
    exact ⟨hb.1, fun ht => by
      rcases hb.2 ht with ⟨sv, hsv, _, heq⟩
      exact ⟨sv, hsv, heq⟩⟩

theorem remove_same_shape_spec (env : Env) (ops : List Op) (pos : Nat) :
    ((remove_same_shape env ops pos).2 = false →
      (remove_same_shape env ops pos).1 = ops)
    ∧ ((remove_same_shape env ops pos).2 = true →
      (remove_same_shape env ops pos).1 =
        rewireAndRemove env ops pos (xVar (opAt ops pos))
          (outVar (opAt ops pos))) := by
  unfold remove_same_shape
  split <;> simp

theorem remove_linear_spec (env : Env) (ops : List Op) (pos : Nat) :
    ((remove_linear env ops pos).2 = false →
      (remove_linear env ops pos).1 = ops)
    ∧ ((remove_linear env ops pos).2 = true →
      (remove_linear env ops pos).1 =
        rewireAndRemove env ops pos (xVar (opAt ops pos))
          (outVar (opAt ops pos))) := by
  unfold remove_linear
  split <;> simp

theorem remove_transpose_spec (env : Env) (ops : List Op) (pos : Nat) :
    ((remove_transpose env ops pos).2 = false →
      (remove_transpose env ops pos).1 = ops)
    ∧ ((remove_transpose env ops pos).2 = true →
      (remove_transpose env ops pos).1 =
        rewireAndRemove env ops pos (xVar (opAt ops pos))
          (outVar (opAt ops pos))) := by
  unfold remove_transpose
  split <;> simp

theorem runRemovalFn_spec (fn : RemovalFn) (env : Env) (ops : List Op)
    (pos : Nat) :
    ((runRemovalFn fn env ops pos).2 = false →
      (runRemovalFn fn env ops pos).1 = ops)
    ∧ ((runRemovalFn fn env ops pos).2 = true →
      ∃ sv, (runRemovalFn fn env ops pos).1 =
        rewireAndRemove env ops pos sv (outVar (opAt ops pos))) := by
  cases fn with
  | elementwise =>
    have h := remove_elementwise_spec env ops pos
    exact ⟨h.1, fun ht => by
      rcases h.2 ht with ⟨sv, _, heq⟩; exact ⟨sv, heq⟩⟩
  | same_shape =>
    have h := remove_same_shape_spec env ops pos
    exact ⟨h.1, fun ht => ⟨_, h.2 ht⟩⟩
  | linear =>
    have h := remove_linear_spec env ops pos
    exact ⟨h.1, fun ht => ⟨_, h.2 ht⟩⟩
  | transpose =>
    have h := remove_transpose_spec env ops pos
    exact ⟨h.1, fun ht => ⟨_, h.2 ht⟩⟩

theorem remove_elementwise_binary_decision (env : Env) (ops : List Op)
    (pos : Nat) (x y : Option Int) :
    (remove_elementwise_binary env ops pos x y).2 =
      ebDecision env (opAt ops pos) x y := by
  unfold remove_elementwise_binary ebDecision
  split
  · rfl
  · rename_i sv hs
    split <;> rename_i h
    · exact (decide_eq_true h).symm
    · exact (decide_eq_false h).symm

theorem runRemovalFn_decision (fn : RemovalFn) (env : Env) (ops : List Op)
    (pos : Nat) :
    (runRemovalFn fn env ops pos).2 =
      removalSucceeds fn env (opAt ops pos) := by
  cases fn with
  | elementwise =>
    simp only [runRemovalFn, removalSucceeds]
    unfold remove_elementwise
    by_cases h1 : (opAt ops pos).op_type = "add"
    · rw [if_pos h1, if_pos h1]
      exact remove_elementwise_binary_decision env ops pos (some 0) (some 0)
    · rw [if_neg h1, if_neg h1]
      by_cases h2 : (opAt ops pos).op_type = "mul"
      · rw [if_pos h2, if_pos h2]
        exact remove_elementwise_binary_decision env ops pos (some 1) (some 1)
      · rw [if_neg h2, if_neg h2]
        by_cases h3 : (opAt ops pos).op_type ∈ ["floor_div", "pow", "real_div"]
        · rw [if_pos h3, if_pos h3]
          exact remove_elementwise_binary_decision env ops pos none (some 1)
        · rw [if_neg h3, if_neg h3]
          by_cases h4 : (opAt ops pos).op_type = "sub"
          · rw [if_pos h4, if_pos h4]
            exact remove_elementwise_binary_decision env ops pos none (some 0)
          · rw [if_neg h4, if_neg h4]
  | same_shape =>
    simp only [runRemovalFn, removalSucceeds]
    unfold remove_same_shape
    split <;> rename_i h
    · exact (decide_eq_true h).symm
    · exact (decide_eq_false h).symm
  | linear =>
    simp only [runRemovalFn, removalSucceeds]
    unfold remove_linear
    split <;> rename_i h
    · exact (decide_eq_true h).symm
    · exact (decide_eq_false h).symm
  | transpose =>
    simp only [runRemovalFn, removalSucceeds]
    unfold remove_transpose
    split <;> rename_i h
    · exact (decide_eq_false h).symm
    · exact (decide_eq_true (not_not.mp h)).symm

/-! ## Matcher and scan lemmas -/

theorem match_pattern_some {outs : List Nat} {op : Op} {fn : RemovalFn}
    (h : _match_pattern outs op = some fn) :
    op.outputs.length = 1 ∧ outVar op ∉ outs := by
  unfold _match_pattern at h
  split at h
  · cases h
  · rename_i hnotmem
    split at h
    · split at h
      · cases h
      · rename_i hlen
        exact ⟨not_not.mp hlen, hnotmem⟩
    · cases h

theorem mem_singleton_getD {os : List Nat} {v : Nat} (hlen : os.length = 1)
    (hv : v ∈ os) : v = os.getD 0 0 := by
  cases os with
  | nil => cases hv
  | cons a t =>
    cases t with
    | nil => simpa using hv
    | cons b t2 => simp at hlen

theorem rewire_survives (env : Env) (cur : List Op) (pos : Nat)
    (sv outv : Nat) (o : Op) (ho : o ∈ cur) :
    (∃ o2, o2 ∈ rewireAndRemove env cur pos sv outv ∧
      o2.opid = o.opid ∧ o2.outputs = o.outputs)
    ∨ (o.opid = (cur.getD pos default).opid ∧
      o.outputs = (cur.getD pos default).outputs) := by
  have hrep : ∃ o1, o1 ∈ replaceUsesFrom outv sv (anchorIdx env cur sv) cur ∧
      o1.opid = o.opid ∧ o1.outputs = o.outputs := by
    rw [replaceUsesFrom_eq]
    have hsplit : cur = cur.take (anchorIdx env cur sv) ++
        cur.drop (anchorIdx env cur sv) := (List.take_append_drop _ _).symm
    rw [hsplit] at ho
    rcases List.mem_append.mp ho with h1 | h1
    · exact ⟨o, List.mem_append.mpr (Or.inl h1), rfl, rfl⟩
    · exact ⟨substOp outv sv o,
        List.mem_append.mpr (Or.inr (List.mem_map.mpr ⟨o, h1, rfl⟩)),
        substOp_opid _ _ o, substOp_outputs _ _ o⟩
  obtain ⟨o1, ho1, hid1, hout1⟩ := hrep
  rcases mem_removeAt_or_getD _ pos o1 ho1 with hin | heq
  · exact Or.inl ⟨o1, hin, hid1, hout1⟩
  · right
    rcases replaceUsesFrom_getD outv sv (anchorIdx env cur sv) cur pos with
      hg | hg
    · rw [hg] at heq
      exact ⟨hid1 ▸ (heq ▸ rfl : o1.opid = _), hout1 ▸ (heq ▸ rfl : o1.outputs = _)⟩
    · rw [hg] at heq
      constructor
      · rw [← hid1, heq, substOp_opid]
      · rw [← hout1, heq, substOp_outputs]

theorem scanOps_count (fix : Block → Block) (env : Env) (outs : List Nat)
    (hfix : ∀ b, opCountB (fix b) ≤ opCountB b) :
    ∀ (rest done : List Op),
      opCountOps (scanOps fix env outs done rest).1 ≤
        opCountOps done + opCountOps rest
      ∧ ((scanOps fix env outs done rest).2 = true →
        opCountOps (scanOps fix env outs done rest).1 <
          opCountOps done + opCountOps rest) := by
  intro rest
  induction rest with
  | nil =>
    intro done
    constructor
    · simp [scanOps, opCountOps]
    · intro h; simp [scanOps] at h
  | cons op rest ih =>
    intro done
    have hop1 : opCountOp (fixOp fix op) ≤ opCountOp op :=
      fixOp_count_le fix hfix op
    have happ : opCountOps (done ++ [fixOp fix op]) =
        opCountOps done + opCountOp (fixOp fix op) := by
      rw [opCountOps_append]; simp [opCountOps]
    have hrec : opCountOps (scanOps fix env outs (done ++ [fixOp fix op]) rest).1 ≤
        opCountOps done + opCountOps (op :: rest)
        ∧ ((scanOps fix env outs (done ++ [fixOp fix op]) rest).2 = true →
          opCountOps (scanOps fix env outs (done ++ [fixOp fix op]) rest).1 <
            opCountOps done + opCountOps (op :: rest)) := by
      have h := ih (done ++ [fixOp fix op])
      have h1 := h.1
      rw [happ] at h1
      refine ⟨?_, fun ht => ?_⟩
      · simp only [opCountOps]; omega
      · have h2 := h.2 ht
        rw [happ] at h2
        simp only [opCountOps]; omega
    simp only [scanOps]
    split
    · exact hrec
    · split
      · exact hrec
      · split
        · rename_i fn hmatch hr
          obtain ⟨sv, heq⟩ :=
            (runRemovalFn_spec fn env (done ++ fixOp fix op :: rest)
              done.length).2 hr
          have hpos : done.length < (done ++ fixOp fix op :: rest).length := by
            rw [List.length_append, List.length_cons]; omega
          have hcnt := rewireAndRemove_count env sv
            (outVar (opAt (done ++ fixOp fix op :: rest) done.length)) hpos
          have hgd : (done ++ fixOp fix op :: rest).getD done.length default =
              fixOp fix op := getD_append_length done _ rest
          rw [hgd] at hcnt
          have hcur : opCountOps (done ++ fixOp fix op :: rest) =
              opCountOps done + (opCountOp (fixOp fix op) + opCountOps rest) := by
            rw [opCountOps_append]; simp only [opCountOps]
          have hpos1 := opCountOp_pos op
          rw [heq] at *
          refine ⟨?_, fun _ => ?_⟩ <;> simp only [opCountOps] <;> omega
        · exact hrec

theorem scanOps_length (fix : Block → Block) (env : Env) (outs : List Nat) :
    ∀ (rest done : List Op), (scanOps fix env outs done rest).2 = true →
      (scanOps fix env outs done rest).1.length + 1 =
        done.length + rest.length := by
  intro rest
  induction rest with
  | nil => intro done h; simp [scanOps] at h
  | cons op rest ih =>
    intro done
    have hrec : (scanOps fix env outs (done ++ [fixOp fix op]) rest).2 = true →
        (scanOps fix env outs (done ++ [fixOp fix op]) rest).1.length + 1 =
          done.length + (op :: rest).length := by
      intro ht
      have h := ih (done ++ [fixOp fix op]) ht
      simp only [List.length_append, List.length_cons, List.length_nil] at h ⊢
      omega
    simp only [scanOps]
    split
    · exact hrec
    · split
      · exact hrec
      · split
        · rename_i fn hmatch hr
          intro _
          obtain ⟨sv, heq⟩ :=
            (runRemovalFn_spec fn env (done ++ fixOp fix op :: rest)
              done.length).2 hr
          have hpos : done.length < (done ++ fixOp fix op :: rest).length := by
            rw [List.length_append, List.length_cons]; omega
          have hlen := rewireAndRemove_length env sv
            (outVar (opAt (done ++ fixOp fix op :: rest) done.length)) hpos
          rw [heq]
          rw [List.length_append, List.length_cons] at hlen
          simp only [List.length_cons]
          omega
        · exact hrec

theorem scanOps_survives (fix : Block → Block) (env : Env) (outs : List Nat)
    (id : Nat) (os : List Nat)
    (hguard : os.length ≠ 1 ∨ ∃ v, v ∈ os ∧ v ∈ outs) :
    ∀ (rest done : List Op),
      (∃ o, o ∈ done ++ rest ∧ o.opid = id ∧ o.outputs = os) →
      ∃ o, o ∈ (scanOps fix env outs done rest).1 ∧
        o.opid = id ∧ o.outputs = os := by
  intro rest
  induction rest with
  | nil =>
    intro done h
    simpa [scanOps] using h
  | cons op rest ih =>
    intro done hwit
    have hshift : ∃ o, o ∈ (done ++ [fixOp fix op]) ++ rest ∧
        o.opid = id ∧ o.outputs = os := by
      obtain ⟨o, ho, hid, hout⟩ := hwit
      rcases List.mem_append.mp ho with h1 | h1
      · exact ⟨o, by simp [List.mem_append, h1], hid, hout⟩
      · rcases List.mem_cons.mp h1 with he | ht
        · subst he
          exact ⟨fixOp fix o, by simp [List.mem_append],
            (fixOp_opid fix o) ▸ hid, (fixOp_outputs fix o) ▸ hout⟩
        · exact ⟨o, by simp [List.mem_append, ht], hid, hout⟩
    have hcur : ∃ o, o ∈ done ++ fixOp fix op :: rest ∧
        o.opid = id ∧ o.outputs = os := by
      obtain ⟨o, ho, hid, hout⟩ := hshift
      refine ⟨o, ?_, hid, hout⟩
      simp only [List.append_assoc, List.singleton_append] at ho
      exact ho
    simp only [scanOps]
    split
    · exact ih _ hshift
    · split
      · exact ih _ hshift
      · split
        · rename_i fn hmatch hr
          obtain ⟨sv, heq⟩ :=
            (runRemovalFn_spec fn env (done ++ fixOp fix op :: rest)
              done.length).2 hr
          obtain ⟨o, ho, hid, hout⟩ := hcur
          rcases rewire_survives env (done ++ fixOp fix op :: rest) done.length
              sv (outVar (opAt (done ++ fixOp fix op :: rest) done.length)) o ho
            with ⟨o2, hin, hid2, hout2⟩ | ⟨hidg, houtg⟩
          · rw [heq]
            exact ⟨o2, hin, hid2.trans hid, hout2.trans hout⟩
          · exfalso
            have hgd : (done ++ fixOp fix op :: rest).getD done.length default =
                fixOp fix op := getD_append_length done _ rest
            rw [hgd] at hidg houtg
            have hm := match_pattern_some hmatch
            rcases hguard with hlen | ⟨v, hvos, hvouts⟩
            · exact hlen (by rw [← hout, houtg]; exact hm.1)
            · have hos : os = (fixOp fix op).outputs := by rw [← hout, houtg]
              have hvo : v = (fixOp fix op).outputs.getD 0 0 := by
                apply mem_singleton_getD hm.1
                rw [← hos]; exact hvos
              have houtv : outVar (fixOp fix op) ∈ outs := by
                unfold outVar
                rw [← hvo]
                exact hvouts
              exact hm.2 houtv
        · exact ih _ hshift

/-! ## Scan characterization and congruence -/

/-- The op at `pos` of the scanned block during a strategy call is the
nested-fixed version of the visited op. -/
theorem opAt_append (done : List Op) (x : Op) (rest : List Op) :
    opAt (done ++ x :: rest) done.length = x := by
  unfold opAt
  exact getD_append_length done x rest

theorem scanOps_false (fix : Block → Block) (env : Env) (outs : List Nat) :
    ∀ (rest done : List Op), (scanOps fix env outs done rest).2 = false →
      (scanOps fix env outs done rest).1 = done ++ rest.map (fixOp fix)
      ∧ ∀ op ∈ rest, declinedAt fix env outs op := by
  intro rest
  induction rest with
  | nil =>
    intro done _
    constructor
    · simp [scanOps]
    · intro op h; cases h
  | cons op rest ih =>
    intro done hf
    simp only [scanOps] at hf ⊢
    split at hf <;> rename_i hblocks
    · have h := ih (done ++ [fixOp fix op]) hf
      rw [if_pos hblocks]
      refine ⟨by rw [h.1]; simp, fun o ho => ?_⟩
      rcases List.mem_cons.mp ho with he | ht
      · subst he; exact Or.inl hblocks
      · exact h.2 o ht
    · rw [if_neg hblocks]
      split at hf <;> rename_i hmatch
      · have h := ih (done ++ [fixOp fix op]) hf
        refine ⟨by rw [h.1]; simp, fun o ho => ?_⟩
        rcases List.mem_cons.mp ho with he | ht
        · subst he; exact Or.inr (Or.inl hmatch)
        · exact h.2 o ht
      · rename_i fn
        split at hf <;> rename_i hr
        · cases hf
        · have h := ih (done ++ [fixOp fix op]) hf
          rw [if_neg hr]
          refine ⟨by rw [h.1]; simp, fun o ho => ?_⟩
          rcases List.mem_cons.mp ho with he | ht
          · subst he
            refine Or.inr (Or.inr ⟨fn, hmatch, ?_⟩)
            have hd := runRemovalFn_decision fn env
              (done ++ fixOp fix o :: rest) done.length
            rw [opAt_append] at hd
            rw [← hd]
            exact Bool.eq_false_iff.mpr hr
          · exact h.2 o ht

theorem scanOps_of_declined (fix : Block → Block) (env : Env) (outs : List Nat) :
    ∀ (rest done : List Op), (∀ op ∈ rest, declinedAt fix env outs op) →
      scanOps fix env outs done rest = (done ++ rest.map (fixOp fix), false) := by
  intro rest
  induction rest with
  | nil =>
    intro done _
    simp [scanOps]
  | cons op rest ih =>
    intro done hdecl
    have hop := hdecl op (List.mem_cons_self op rest)
    have htail : ∀ o ∈ rest, declinedAt fix env outs o :=
      fun o ho => hdecl o (List.mem_cons_of_mem op ho)
    have hrec := ih (done ++ [fixOp fix op]) htail
    simp only [scanOps]
    split <;> rename_i hblocks
    · rw [hrec]; simp
    · split <;> rename_i hmatch
      · rw [hrec]; simp
      · rename_i fn
        have hfail : removalSucceeds fn env (fixOp fix op) = false := by
          rcases hop with h | h | ⟨fn2, heq2, hfail2⟩
          · exact absurd h hblocks
          · rw [h] at hmatch; cases hmatch
          · rw [heq2] at hmatch
            cases hmatch
            exact hfail2
        have hd := runRemovalFn_decision fn env
          (done ++ fixOp fix op :: rest) done.length
        rw [opAt_append] at hd
        rw [if_neg (show ¬((runRemovalFn fn env
            (done ++ fixOp fix op :: rest) done.length).2 = true) from
          fun hc => by rw [hd, hfail] at hc; exact Bool.false_ne_true hc)]
        rw [hrec]; simp

theorem scanOps_congr (f g : Block → Block) (env : Env) (outs : List Nat) :
    ∀ (rest done : List Op),
      (∀ op ∈ rest, ∀ nb ∈ op.blocks, f nb = g nb) →
      scanOps f env outs done rest = scanOps g env outs done rest := by
  intro rest
  induction rest with
  | nil => intro done _; rfl
  | cons op rest ih =>
    intro done h
    have hfix1 : fixOp f op = fixOp g op := by
      cases op with
      | mk i t ins outs2 bs =>
        simp only [fixOp]
        congr 1
        exact List.map_congr_left
          (fun nb hnb => h _ (List.mem_cons_self _ _) nb hnb)
    have ihr := ih (done ++ [fixOp g op])
      (fun op2 h2 => h op2 (List.mem_cons_of_mem op h2))
    simp only [scanOps]
    rw [hfix1]
    by_cases hb : 0 < (fixOp g op).blocks.length
    · rw [if_pos hb, if_pos hb]
      exact ihr
    · rw [if_neg hb, if_neg hb]
      split
      · exact ihr
      · split
        · rfl
        · exact ihr

/-! ## Fixed-point loop lemmas -/

theorem opCountB_eq (b : Block) : opCountB b = opCountOps b.operations := by
  cases b with
  | mk ops outs => rfl

theorem elimOnceWith_count (fix : Block → Block) (env : Env) (b : Block)
    (hfix : ∀ b2, opCountB (fix b2) ≤ opCountB b2) :
    opCountB (elimOnceWith fix env b).1 ≤ opCountB b
    ∧ ((elimOnceWith fix env b).2 = true →
      opCountB (elimOnceWith fix env b).1 < opCountB b) := by
  unfold elimOnceWith
  have h := scanOps_count fix env b.outputs hfix b.operations []
  simp only [opCountOps] at h
  constructor
  · rw [opCountB_mk, opCountB_eq]
    omega
  · intro ht
    rw [opCountB_mk, opCountB_eq]
    have := h.2 ht
    omega

theorem elimOnceWith_length (fix : Block → Block) (env : Env) (b : Block)
    (ht : (elimOnceWith fix env b).2 = true) :
    (elimOnceWith fix env b).1.operations.length + 1 = b.operations.length := by
  unfold elimOnceWith at ht ⊢
  have h := scanOps_length fix env b.outputs b.operations [] ht
  simpa using h

theorem bounded_count (env : Env) :
    ∀ (n : Nat) (b : Block),
      opCountB (noopEliminationBounded env n b) ≤ opCountB b := by
  intro n
  induction n with
  | zero => intro b; exact le_refl _
  | succ n ih =>
    intro b
    simp only [noopEliminationBounded]
    have hc := elimOnceWith_count (noopEliminationBounded env n) env b ih
    split
    · exact le_trans (ih _) hc.1
    · exact hc.1

theorem bounded_stable (env : Env) :
    ∀ (c : Nat) (b : Block), opCountB b ≤ c → ∀ n m, opCountB b < n →
      opCountB b < m →
      noopEliminationBounded env n b = noopEliminationBounded env m b := by
  intro c
  induction c with
  | zero =>
    intro b hb n m hn hm
    match n, m with
    | n1 + 1, m1 + 1 =>
      simp only [noopEliminationBounded]
      have hops : b.operations = [] :=
        operations_nil_of_count_zero (Nat.le_antisymm hb (Nat.zero_le _))
      have hcong : elimOnceWith (noopEliminationBounded env n1) env b =
          elimOnceWith (noopEliminationBounded env m1) env b := by
        unfold elimOnceWith
        rw [scanOps_congr (noopEliminationBounded env n1)
          (noopEliminationBounded env m1) env b.outputs b.operations []
          (by rw [hops]; intro op h2; cases h2)]
      rw [hcong]
      by_cases hr : (elimOnceWith (noopEliminationBounded env m1) env b).2 = true
      · exfalso
        have := (elimOnceWith_count (noopEliminationBounded env m1) env b
          (bounded_count env m1)).2 hr
        omega
      · rw [if_neg hr, if_neg hr]
  | succ c ih =>
    intro b hb n m hn hm
    match n, m with
    | n1 + 1, m1 + 1 =>
      simp only [noopEliminationBounded]
      have hcong : elimOnceWith (noopEliminationBounded env n1) env b =
          elimOnceWith (noopEliminationBounded env m1) env b := by
        unfold elimOnceWith
        rw [scanOps_congr (noopEliminationBounded env n1)
          (noopEliminationBounded env m1) env b.outputs b.operations [] ?_]
        intro op hop nb hnb
        have hlt : opCountB nb < opCountB b := by
          rw [opCountB_eq b]
          exact opCountB_nested_lt hnb hop
        exact ih nb (by omega) n1 m1 (by omega) (by omega)
      rw [hcong]
      by_cases hr : (elimOnceWith (noopEliminationBounded env m1) env b).2 = true
      · rw [if_pos hr, if_pos hr]
        have hlt := (elimOnceWith_count (noopEliminationBounded env m1) env b
          (bounded_count env m1)).2 hr
        exact ih _ (by omega) n1 m1 (by omega) (by omega)
      · rw [if_neg hr, if_neg hr]

theorem elimOnceB_eq_bounded_scan (env : Env) (b : Block) :
    elimOnceWith (noopEliminationBounded env (opCountB b)) env b =
      elimOnceB env b := by
  unfold elimOnceB
  unfold elimOnceWith
  rw [scanOps_congr (noopEliminationBounded env (opCountB b))
    (noop_elimination_block_fix env) env b.outputs b.operations [] ?_]
  intro op hop nb hnb
  have hlt : opCountB nb < opCountB b := by
    rw [opCountB_eq b]
    exact opCountB_nested_lt hnb hop
  exact bounded_stable env (opCountB nb) nb (le_refl _) (opCountB b)
    (opCountB nb + 1) hlt (by omega)

theorem fix_unfold (env : Env) (b : Block) :
    noop_elimination_block_fix env b =
      (if (elimOnceB env b).2 = true then
        noop_elimination_block_fix env (elimOnceB env b).1
      else (elimOnceB env b).1) := by
  unfold noop_elimination_block_fix
  conv_lhs => rw [show opCountB b + 1 = opCountB b + 1 from rfl]
  simp only [noopEliminationBounded]
  rw [elimOnceB_eq_bounded_scan]
  by_cases hr : (elimOnceB env b).2 = true
  · rw [if_pos hr, if_pos hr]
    have hlt : opCountB (elimOnceB env b).1 < opCountB b :=
      (elimOnceWith_count (noop_elimination_block_fix env) env b
        (fun b2 => bounded_count env (opCountB b2 + 1) b2)).2 hr
    show noopEliminationBounded env (opCountB b) (elimOnceB env b).1 =
      noopEliminationBounded env (opCountB (elimOnceB env b).1 + 1)
        (elimOnceB env b).1
    exact bounded_stable env (opCountB (elimOnceB env b).1) _ (le_refl _)
      (opCountB b) (opCountB (elimOnceB env b).1 + 1) hlt (by omega)
  · rw [if_neg hr, if_neg hr]

/-! ## Idempotence of the elimination fixed point -/

theorem elimOnceWith_outputs (fix : Block → Block) (env : Env) (b : Block) :
    (elimOnceWith fix env b).1.outputs = b.outputs := rfl

theorem fixB_of_converged (env : Env) (r : Block)
    (h : elimOnceB env r = (r, false)) :
    noop_elimination_block_fix env r = r := by
  rw [fix_unfold env r, h]
  simp

theorem fixOp_idem (env : Env) (op : Op)
    (hnest : ∀ nb ∈ op.blocks,
      noop_elimination_block_fix env (noop_elimination_block_fix env nb) =
        noop_elimination_block_fix env nb) :
    fixOp (noop_elimination_block_fix env)
      (fixOp (noop_elimination_block_fix env) op) =
      fixOp (noop_elimination_block_fix env) op := by
  cases op with
  | mk i t ins outs bs =>
    simp only [fixOp, List.map_map]
    congr 1
    apply List.map_congr_left
    intro nb hnb
    show noop_elimination_block_fix env (noop_elimination_block_fix env nb) =
      noop_elimination_block_fix env nb
    exact hnest nb hnb

theorem elimOnce_stable_of (env : Env) (b : Block)
    (hfalse : (elimOnceB env b).2 = false)
    (hnest : ∀ op ∈ b.operations, ∀ nb ∈ op.blocks,
      noop_elimination_block_fix env (noop_elimination_block_fix env nb) =
        noop_elimination_block_fix env nb) :
    elimOnceB env (elimOnceB env b).1 = ((elimOnceB env b).1, false) := by
  have hscan := scanOps_false (noop_elimination_block_fix env) env b.outputs
    b.operations [] hfalse
  have hres : (elimOnceB env b).1 = Block.mk
      (b.operations.map (fixOp (noop_elimination_block_fix env))) b.outputs := by
    show (Block.mk (scanOps (noop_elimination_block_fix env) env b.outputs []
      b.operations).1 b.outputs) = _
    rw [hscan.1]
    simp
  rw [hres]
  have hidem : ∀ op ∈ b.operations,
      fixOp (noop_elimination_block_fix env)
        (fixOp (noop_elimination_block_fix env) op) =
        fixOp (noop_elimination_block_fix env) op :=
    fun op hop => fixOp_idem env op (hnest op hop)
  have hdecl2 : ∀ op2 ∈ b.operations.map (fixOp (noop_elimination_block_fix env)),
      declinedAt (noop_elimination_block_fix env) env b.outputs op2 := by
    intro op2 hop2
    rcases List.mem_map.mp hop2 with ⟨op, hop, heq⟩
    have hd := hscan.2 op hop
    unfold declinedAt at hd ⊢
    rw [← heq]
    rw [hidem op hop]
    exact hd
  have hscan2 := scanOps_of_declined (noop_elimination_block_fix env) env
    b.outputs (b.operations.map (fixOp (noop_elimination_block_fix env))) []
    hdecl2
  have hmm2 : (b.operations.map (fixOp (noop_elimination_block_fix env))).map
      (fixOp (noop_elimination_block_fix env)) =
      b.operations.map (fixOp (noop_elimination_block_fix env)) := by
    rw [List.map_map]
    apply List.map_congr_left
    intro op hop
    show fixOp (noop_elimination_block_fix env)
      (fixOp (noop_elimination_block_fix env) op) =
      fixOp (noop_elimination_block_fix env) op
    exact hidem op hop
  show (Block.mk (scanOps (noop_elimination_block_fix env) env b.outputs []
      (b.operations.map (fixOp (noop_elimination_block_fix env)))).1 b.outputs,
    (scanOps (noop_elimination_block_fix env) env b.outputs []
      (b.operations.map (fixOp (noop_elimination_block_fix env)))).2) = _
  rw [hscan2]
  simp only [List.nil_append]
  rw [hmm2]

theorem fix_converged (env : Env) :
    ∀ (c : Nat) (b : Block), opCountB b ≤ c →
      elimOnceB env (noop_elimination_block_fix env b) =
        (noop_elimination_block_fix env b, false) := by
  intro c
  induction c with
  | zero =>
    intro b hb
    rw [fix_unfold env b]
    by_cases hr : (elimOnceB env b).2 = true
    · exfalso
      have hlt : opCountB (elimOnceB env b).1 < opCountB b :=
        (elimOnceWith_count (noop_elimination_block_fix env) env b
          (fun b2 => bounded_count env (opCountB b2 + 1) b2)).2 hr
      omega
    · rw [if_neg hr]
      apply elimOnce_stable_of env b (Bool.eq_false_iff.mpr hr)
      have hops : b.operations = [] :=
        operations_nil_of_count_zero (Nat.le_antisymm hb (Nat.zero_le _))
      rw [hops]
      intro op hop
      cases hop
  | succ c ih =>
    intro b hb
    rw [fix_unfold env b]
    by_cases hr : (elimOnceB env b).2 = true
    · rw [if_pos hr]
      have hlt : opCountB (elimOnceB env b).1 < opCountB b :=
        (elimOnceWith_count (noop_elimination_block_fix env) env b
          (fun b2 => bounded_count env (opCountB b2 + 1) b2)).2 hr
      exact ih (elimOnceB env b).1 (by omega)
    · rw [if_neg hr]
      apply elimOnce_stable_of env b (Bool.eq_false_iff.mpr hr)
      intro op hop nb hnb
      have hlt : opCountB nb < opCountB b := by
        rw [opCountB_eq b]
        exact opCountB_nested_lt hnb hop
      exact fixB_of_converged env (noop_elimination_block_fix env nb)
        (ih nb (by omega))

theorem noop_fix_idempotent (env : Env) (b : Block) :
    noop_elimination_block_fix env (noop_elimination_block_fix env b) =
      noop_elimination_block_fix env b :=
  fixB_of_converged env (noop_elimination_block_fix env b)
    (fix_converged env (opCountB b) b (le_refl _))

/-! ## Claims C3 and C4 -/

/-- Claim C3: the fixed-point loop terminates on every finite program — a scan
that rewrites strictly decreases the block's total operation count (removing
exactly one operation from the scanned level), a scan with zero rewrites ends
the loop at that scan's result, and the loop's result is already stable at
fuel `opCountB b + 1`, so any larger iteration bound returns the same block
(`apply` always returns). -/
theorem noop_C3_termination :
    (∀ (env : Env) (b : Block), (elimOnceB env b).2 = true →
      opCountB (elimOnceB env b).1 < opCountB b)
    ∧ (∀ (env : Env) (b : Block), (elimOnceB env b).2 = true →
      (elimOnceB env b).1.operations.length + 1 = b.operations.length)
    ∧ (∀ (env : Env) (b : Block), (elimOnceB env b).2 = false →
      noop_elimination_block_fix env b = (elimOnceB env b).1)
    ∧ (∀ (env : Env) (b : Block) (n : Nat), opCountB b < n →
      noopEliminationBounded env n b = noop_elimination_block_fix env b) := by
  refine ⟨?_, ?_, ?_, ?_⟩
  · intro env b ht
    exact (elimOnceWith_count (noop_elimination_block_fix env) env b
      (fun b2 => bounded_count env (opCountB b2 + 1) b2)).2 ht
  · intro env b ht
    exact elimOnceWith_length (noop_elimination_block_fix env) env b ht
  · intro env b hf
    rw [fix_unfold env b, hf]
    simp
  · intro env b n hn
    exact bounded_stable env (opCountB b) b (le_refl _) n (opCountB b + 1) hn
      (by omega)

/-- Claim C4: the elimination pass is idempotent — a second `apply` on the
result of a first `apply` performs no rewrite and returns the program exactly
unchanged. -/
theorem noop_C4_idempotent (env : Env) (p : Program) :
    noop_elimination_apply env (noop_elimination_apply env p) =
      noop_elimination_apply env p := by
  unfold noop_elimination_apply
  rw [List.map_map]
  apply List.map_congr_left
  intro f hf
  show (f.1, noop_elimination_block_fix env (noop_elimination_block_fix env f.2)) = _
  rw [noop_fix_idempotent]

/-! ## Claim C2: matcher guard and survival -/

theorem bounded_survives (env : Env) (id : Nat) (os : List Nat) :
    ∀ (n : Nat) (b : Block),
      (os.length ≠ 1 ∨ ∃ v, v ∈ os ∧ v ∈ b.outputs) →
      (∃ o, o ∈ b.operations ∧ o.opid = id ∧ o.outputs = os) →
      ∃ o, o ∈ (noopEliminationBounded env n b).operations ∧
        o.opid = id ∧ o.outputs = os := by
  intro n
  induction n with
  | zero => intro b hg hw; exact hw
  | succ n ih =>
    intro b hg hw
    have hw2 : ∃ o, o ∈ (elimOnceWith (noopEliminationBounded env n) env
        b).1.operations ∧ o.opid = id ∧ o.outputs = os := by
      exact scanOps_survives (noopEliminationBounded env n) env b.outputs id os
        hg b.operations [] (by simpa using hw)
    have hg2 : os.length ≠ 1 ∨ ∃ v, v ∈ os ∧
        v ∈ (elimOnceWith (noopEliminationBounded env n) env b).1.outputs := by
      rcases hg with h | ⟨v, h1, h2⟩
      · exact Or.inl h
      · exact Or.inr ⟨v, h1, by rw [elimOnceWith_outputs]; exact h2⟩
    simp only [noopEliminationBounded]
    split
    · exact ih _ hg2 hw2
    · exact hw2

/-- Claim C2: the pattern matcher returns no match for an op with more than
one output or whose first (sole) output is a declared block output; and every
operation producing one of its block's declared outputs survives the pass with
its identity and outputs intact. -/
theorem noop_C2_block_output_guard :
    (∀ (outs : List Nat) (op : Op), (op.outputs.length ≠ 1 ∨ outVar op ∈ outs) →
      _match_pattern outs op = none)
    ∧ (∀ (env : Env) (b : Block) (op : Op), op ∈ b.operations →
      ((∃ v, v ∈ op.outputs ∧ v ∈ b.outputs) ∨ op.outputs.length ≠ 1) →
      ∃ o, o ∈ (noop_elimination_block_fix env b).operations ∧
        o.opid = op.opid ∧ o.outputs = op.outputs) := by
  constructor
  · intro outs op h
    unfold _match_pattern
    rcases h with hlen | hmem
    · by_cases hm : outVar op ∈ outs
      · rw [if_pos hm]
      · rw [if_neg hm]
        by_cases hs : op.op_type ∈ SUPPORTED_OPS
        · rw [if_pos hs, if_pos hlen]
        · rw [if_neg hs]
    · rw [if_pos hmem]
  · intro env b op hop hg
    apply bounded_survives env op.opid op.outputs (opCountB b + 1) b
    · rcases hg with h | h
      · exact Or.inr h
      · exact Or.inl h
    · exact ⟨op, hop, rfl, rfl⟩

/-! ## Claims C1 and C5 -/

theorem ew_branch_eq (env : Env) (op : Op) (cx cy : Int) :
    (if constAllEq env (xVar op) cx then
      ((env (yVar op)).sym_type = (env (outVar op)).sym_type : Bool)
    else constAllEq env (yVar op) cy &&
      ((env (xVar op)).sym_type = (env (outVar op)).sym_type)) =
    ebDecision env op (some cx) (some cy) := by
  unfold ebDecision ebSurvivor ebConstMatch
  by_cases hx : constAllEq env (xVar op) cx = true
  · rw [if_pos hx, if_pos hx]
  · rw [if_neg hx, if_neg hx]
    by_cases hy : constAllEq env (yVar op) cy = true
    · rw [if_pos hy]
      simp [hy]
    · rw [if_neg hy]
      simp [Bool.eq_false_iff.mpr hy]

theorem ew_branch_right_eq (env : Env) (op : Op) (cy : Int) :
    (constAllEq env (yVar op) cy &&
      ((env (xVar op)).sym_type = (env (outVar op)).sym_type : Bool)) =
    ebDecision env op none (some cy) := by
  unfold ebDecision ebSurvivor ebConstMatch
  by_cases hy : constAllEq env (yVar op) cy = true
  · rw [if_pos hy]
    simp [hy]
  · rw [if_neg hy]
    simp [Bool.eq_false_iff.mpr hy]

theorem amended_eq_decision (env : Env) (op : Op) :
    amendedRemovableC1 env op = removalSucceeds RemovalFn.elementwise env op := by
  unfold amendedRemovableC1 removalSucceeds
  by_cases h1 : op.op_type = "add"
  · rw [if_pos h1, if_pos h1]
    exact ew_branch_eq env op 0 0
  · rw [if_neg h1, if_neg h1]
    by_cases h2 : op.op_type = "mul"
    · rw [if_pos h2, if_pos h2]
      exact ew_branch_eq env op 1 1
    · rw [if_neg h2, if_neg h2]
      by_cases h3 : op.op_type ∈ ["floor_div", "pow", "real_div"]
      · rw [if_pos h3, if_pos h3]
        exact ew_branch_right_eq env op 1
      · rw [if_neg h3, if_neg h3]
        by_cases h4 : op.op_type = "sub"
        · rw [if_pos h4, if_pos h4]
          exact ew_branch_right_eq env op 0
        · rw [if_neg h4, if_neg h4]

/-- Claim C1 (amended): an elementwise binary op handed to the removal
strategy is deleted, with its output's uses redirected to the surviving
operand, exactly when the amended identity condition holds (constant identity
on an allowed side with the left operand's match taking priority for add/mul,
and the surviving operand's symbolic type equal to the output's); otherwise
the strategy returns false and leaves the operation list untouched. -/
theorem noop_C1_elementwise (env : Env) (ops : List Op) (pos : Nat)
    (_htype : (opAt ops pos).op_type ∈
      ["add", "mul", "sub", "real_div", "floor_div", "pow"]) :
    ((remove_elementwise env ops pos).2 = amendedRemovableC1 env (opAt ops pos))
    ∧ ((remove_elementwise env ops pos).2 = false →
      (remove_elementwise env ops pos).1 = ops)
    ∧ ((remove_elementwise env ops pos).2 = true → pos < ops.length →
      (remove_elementwise env ops pos).1.length + 1 = ops.length)
    ∧ ((remove_elementwise env ops pos).2 = true →
      anchorIdx env ops (xVar (opAt ops pos)) ≤ pos →
      anchorIdx env ops (yVar (opAt ops pos)) ≤ pos →
      outVar (opAt ops pos) ≠ xVar (opAt ops pos) →
      outVar (opAt ops pos) ≠ yVar (opAt ops pos) →
      (∀ o ∈ ops.take (pos + 1), opUses (outVar (opAt ops pos)) o = false) →
      ∀ o ∈ (remove_elementwise env ops pos).1,
        opUses (outVar (opAt ops pos)) o = false) := by
  refine ⟨?_, (remove_elementwise_spec env ops pos).1, ?_, ?_⟩
  · exact (runRemovalFn_decision RemovalFn.elementwise env ops pos).trans
      (amended_eq_decision env (opAt ops pos)).symm
  · intro ht hpos
    rcases (remove_elementwise_spec env ops pos).2 ht with ⟨sv, _, heq⟩
    rw [heq]
    exact rewireAndRemove_length env sv _ hpos
  · intro ht hax hay hnx hny hpre o ho
    rcases (remove_elementwise_spec env ops pos).2 ht with ⟨sv, hsv, heq⟩
    rw [heq] at ho
    rcases hsv with h | h <;> subst h
    · exact rewireAndRemove_not_uses env ops pos _ _ hnx hax hpre o ho
    · exact rewireAndRemove_not_uses env ops pos _ _ hny hay hpre o ho

/-- Claim C5: the transpose strategy normalizes the permutation (negative axes
get the rank added) and removes the op — redirecting uses of its output to its
input — exactly when the normalized permutation is in ascending sorted order;
otherwise it declines and leaves the block untouched. -/
theorem noop_C5_transpose (env : Env) (ops : List Op) (pos : Nat) (l : List Int)
    (hval : (env (permVar (opAt ops pos))).val = some l) :
    ((remove_transpose env ops pos).2 = true ↔
      List.Sorted (fun a b => a ≤ b) (normalizePerm l))
    ∧ ((remove_transpose env ops pos).2 = false →
      (remove_transpose env ops pos).1 = ops)
    ∧ ((remove_transpose env ops pos).2 = true → pos < ops.length →
      (remove_transpose env ops pos).1.length + 1 = ops.length)
    ∧ ((remove_transpose env ops pos).2 = true →
      anchorIdx env ops (xVar (opAt ops pos)) ≤ pos →
      outVar (opAt ops pos) ≠ xVar (opAt ops pos) →
      (∀ o ∈ ops.take (pos + 1), opUses (outVar (opAt ops pos)) o = false) →
      ∀ o ∈ (remove_transpose env ops pos).1,
        opUses (outVar (opAt ops pos)) o = false) := by
  refine ⟨?_, (remove_transpose_spec env ops pos).1, ?_, ?_⟩
  · have hd := runRemovalFn_decision RemovalFn.transpose env ops pos
    have hd2 : (remove_transpose env ops pos).2 =
        removalSucceeds RemovalFn.transpose env (opAt ops pos) := hd
    rw [hd2]
    simp only [removalSucceeds]
    rw [hval]
    simp only [Option.getD_some]
    constructor
    · intro h
      have heq : normalizePerm l =
          List.insertionSort (fun a b => a ≤ b) (normalizePerm l) :=
        of_decide_eq_true h
      rw [heq]
      exact List.sorted_insertionSort _ _
    · intro h
      exact decide_eq_true (List.Sorted.insertionSort_eq h).symm
  · intro ht hpos
    rw [(remove_transpose_spec env ops pos).2 ht]
    exact rewireAndRemove_length env _ _ hpos
  · intro ht ha hnx hpre o ho
    rw [(remove_transpose_spec env ops pos).2 ht] at ho
    exact rewireAndRemove_not_uses env ops pos _ _ hnx ha hpre o ho

/-- Claim C1 as stated is false: for `add(0 : symS, 0 : symT) : symS`, the
right operand is a constant zero on an allowed side and the surviving left
operand's type equals the output type, so the claim requires removal — but the
code's first branch fires on the constant left operand, selects the right
operand as survivor, fails the type guard, and declines. -/
theorem noop_C1_counterexample :
    ¬ (((remove_elementwise envC1c opsC1c 0).2 = true) ↔
      claimRemovableC1 envC1c (opAt opsC1c 0) = true) := by decide

theorem noop_C1_witness :
    (remove_elementwise envC1w opsC1w 0).2 = true
    ∧ (remove_elementwise envC1w opsC1w 0).1.length + 1 = opsC1w.length
    ∧ ∀ o ∈ (remove_elementwise envC1w opsC1w 0).1,
        opUses (outVar (opAt opsC1w 0)) o = false := by
  have h := noop_C1_elementwise envC1w opsC1w 0 (by decide)
  refine ⟨?_, ?_, ?_⟩
  · rw [h.1]; decide
  · exact h.2.2.1 (by rw [h.1]; decide) (by decide)
  · exact h.2.2.2 (by rw [h.1]; decide) (by decide) (by decide) (by decide)
      (by decide) (by decide)

theorem noop_C2_witness :
    _match_pattern [3] (Op.mk 5 "add" [1, 2] [3] []) = none
    ∧ ∃ o, o ∈ (noop_elimination_block_fix envC2w blkC2w).operations ∧
        o.opid = 5 ∧ o.outputs = [3] := by
  constructor
  · exact noop_C2_block_output_guard.1 [3] (Op.mk 5 "add" [1, 2] [3] [])
      (Or.inr (by decide))
  · exact noop_C2_block_output_guard.2 envC2w blkC2w
      (Op.mk 5 "add" [1, 2] [3] []) (List.mem_singleton.mpr rfl)
      (Or.inl ⟨3, by decide, by decide⟩)

theorem noop_C3_witness :
    opCountB (elimOnceB envC3w blkC3w).1 < opCountB blkC3w
    ∧ (elimOnceB envC3w blkC3w).1.operations.length + 1 =
        blkC3w.operations.length
    ∧ noopEliminationBounded envC3w 5 blkC3w =
        noop_elimination_block_fix envC3w blkC3w :=
  ⟨noop_C3_termination.1 envC3w blkC3w (by decide),
   noop_C3_termination.2.1 envC3w blkC3w (by decide),
   noop_C3_termination.2.2.2 envC3w blkC3w 5 (by decide)⟩

theorem noop_C5_witness :
    (remove_transpose envC5w opsC5w 0).2 = true
    ∧ (remove_transpose envC5w opsC5w 0).1.length + 1 = opsC5w.length := by
  have h := noop_C5_transpose envC5w opsC5w 0 [-3, -2, -1] (by decide)
  exact ⟨h.1.mpr (by decide), h.2.2.1 (h.1.mpr (by decide)) (by decide)⟩

end CoremlSpec


